import Mathlib

/-!
Verification development for the gdocs-cli markdown-to-Google-Docs-requests
compiler (`markdown-parser.js`) and its table materialization protocol
(`cli/index.js`).

Strings are modelled as `List Char` (`Str`): JavaScript strings are
sequences of code units and every character relevant here is a single
unit, so list length coincides with JS `.length`.

The `marked` lexer is an external dependency (the spec's Token Source
collaborator); the compiler is therefore modelled as a function of the
token tree the lexer supplies.  Token objects are modelled as inductive
types whose constructors carry the fields the compiler reads
(`type`, `text`, `tokens`, `depth`, `ordered`, `items`, `header`, `rows`,
`href`); an absent optional field is modelled by the empty list.
-/

abbrev Str := List Char

/-- Apostrophe character (code point 39). -/
def apos : Char := Char.ofNat 39

/-- Double-quote character (code point 34). -/
def dquote : Char := Char.ofNat 34

/-- Checks whether `pat` is a prefix of `s` (used to model matching a literal
regex pattern at the current scan position). -/
def matchesPat : Str → Str → Bool
  | [], _ => true
  | _ :: _, [] => false
  | p :: ps, c :: cs => p = c && matchesPat ps cs

/-- Fuelled worker for `replaceAll`.  One unit of fuel is spent per consumed
input position, so fuel equal to the input length always suffices. -/
def replaceAllGo (pat repl : Str) : Nat → Str → Str
  | _, [] => []
  | 0, s => s
  | fuel + 1, c :: rest =>
    if pat ≠ [] ∧ matchesPat pat (c :: rest) then
      repl ++ replaceAllGo pat repl fuel (List.drop (pat.length - 1) rest)
    else
      c :: replaceAllGo pat repl fuel rest

/-- JavaScript `String.prototype.replace` with a global literal pattern:
leftmost, non-overlapping occurrences of `pat` are replaced by `repl`,
scanning resumes after each replaced occurrence. -/
def replaceAll (pat repl s : Str) : Str := replaceAllGo pat repl s.length s

/-- `decodeEntities` from `markdown-parser.js`: the seven chained
`.replace(/…/g, …)` calls, in source order. -/
def decodeEntities (text : Str) : Str :=
  replaceAll "&nbsp;".toList " ".toList
    (replaceAll "&gt;".toList ">".toList
      (replaceAll "&lt;".toList "<".toList
        (replaceAll "&amp;".toList "&".toList
          (replaceAll "&quot;".toList [dquote]
            (replaceAll "&#x27;".toList [apos]
              (replaceAll "&#39;".toList [apos] text))))))

/-- Inline nodes of the `marked` token tree (Token Source collaborator).
Each constructor carries the fields the compiler reads; `other` stands for
any inline token kind not named in the compiler's `switch`. -/
inductive InlineToken where
  | strong (text : Str) (tokens : List InlineToken)
  | em (text : Str) (tokens : List InlineToken)
  | link (href : Str) (text : Str) (tokens : List InlineToken)
  | codespan (text : Str)
  | text (text : Str) (tokens : List InlineToken)
  | other (ty : String) (text : Str) (tokens : List InlineToken)

/-- Block nodes of the `marked` token tree.  A list item is modelled by its
`tokens` array (the only field `processList` reads); a table cell by its
`tokens` array likewise.  `textBlock` is the block-level `text` token kind
(it hits the `default` branch of `processToken` but is handled specially
inside list items); `other` is any block kind not named in the `switch`. -/
inductive BlockToken where
  | heading (depth : Nat) (text : Str) (tokens : List InlineToken)
  | paragraph (text : Str) (tokens : List InlineToken)
  | list (ordered : Bool) (items : List (List BlockToken))
  | table (header : List (List InlineToken)) (rows : List (List (List InlineToken)))
  | code (text : Str)
  | blockquote (text : Str) (tokens : List BlockToken)
  | hr
  | space
  | textBlock (text : Str) (tokens : List InlineToken)
  | other (ty : String) (text : Str)

/-- `getPlainText` from `markdown-parser.js`, on inline token lists: prefers
parsed children over raw text. -/
def getPlainText : List InlineToken → Str
  | [] => []
  | .strong txt toks :: rest =>
    (if toks.isEmpty then txt else getPlainText toks) ++ getPlainText rest
  | .em txt toks :: rest =>
    (if toks.isEmpty then txt else getPlainText toks) ++ getPlainText rest
  | .link _ txt toks :: rest =>
    (if toks.isEmpty then txt else getPlainText toks) ++ getPlainText rest
  | .codespan txt :: rest => txt ++ getPlainText rest
  | .text txt toks :: rest =>
    (if toks.isEmpty then txt else getPlainText toks) ++ getPlainText rest
  | .other _ txt toks :: rest =>
    (if toks.isEmpty then txt else getPlainText toks) ++ getPlainText rest

/-- `getPlainText` applied to block-level tokens (as in `processList`'s
`getPlainText([t])` and recursion through blockquote children): a token
with a `tokens` array recurses, otherwise its `text` field is used when
present; `list`, `table`, `hr` and `space` tokens carry neither. -/
def getPlainTextBlocks : List BlockToken → Str
  | [] => []
  | .heading _ txt toks :: rest =>
    (if toks.isEmpty then txt else getPlainText toks) ++ getPlainTextBlocks rest
  | .paragraph txt toks :: rest =>
    (if toks.isEmpty then txt else getPlainText toks) ++ getPlainTextBlocks rest
  | .list _ _ :: rest => getPlainTextBlocks rest
  | .table _ _ :: rest => getPlainTextBlocks rest
  | .code txt :: rest => txt ++ getPlainTextBlocks rest
  | .blockquote txt toks :: rest =>
    (if toks.isEmpty then txt else getPlainTextBlocks toks) ++ getPlainTextBlocks rest
  | .hr :: rest => getPlainTextBlocks rest
  | .space :: rest => getPlainTextBlocks rest
  | .textBlock txt toks :: rest =>
    (if toks.isEmpty then txt else getPlainText toks) ++ getPlainTextBlocks rest
  | .other _ txt :: rest => txt ++ getPlainTextBlocks rest

/-- Text-style payloads appearing literally in `markdown-parser.js` and
`cli/index.js` `updateTextStyle` requests. -/
inductive TextAttr where
  | bold
  | italic
  | linkStyle (href : Str)
  | codespanStyle
  | codeBlockStyle
  | blockquoteColor
  | hrColor
deriving DecidableEq

/-- Paragraph-style payloads appearing literally in `markdown-parser.js`
`updateParagraphStyle` requests. -/
inductive ParaAttr where
  | named (styleName : String)
  | blockquoteBorder
  | hrFormat
deriving DecidableEq

/-- Google Docs batchUpdate request kinds emitted by the compiler and the
table materializer. -/
inductive DocRequest where
  | updateTextStyle (startIndex endIndex : Nat) (attr : TextAttr)
  | updateParagraphStyle (startIndex endIndex : Nat) (attr : ParaAttr)
  | createParagraphBullets (startIndex endIndex : Nat) (preset : String)
  | insertText (index : Nat) (text : Str)
  | insertTable (rows columns : Nat) (index : Nat)
deriving DecidableEq

/-- The deferred table descriptor built by `processTable` and stamped with
`textIndex` by `parseMarkdown`. -/
structure TableInfo where
  startIndex : Nat
  numRows : Nat
  numCols : Nat
  cells : List (List Str)
  headerCells : List Str
  textIndex : Nat
deriving DecidableEq

/-- Result of one `processToken` call: `{ text, requests, tableInfo? }`. -/
structure TokenResult where
  text : Str
  requests : List DocRequest
  tableInfo : Option TableInfo := none

/-- `processInlineTokens` from `markdown-parser.js`: walks inline tokens at a
running cursor, accumulating text and style requests.  The `link` case
models `token.tokens || [{text: token.text}]` as `getPlainText tokens`,
since the token source always supplies a (possibly empty) `tokens` array
on link tokens and an empty array is truthy in JavaScript. -/
def processInlineTokens : List InlineToken → Nat → Str × List DocRequest
  | [], _ => ([], [])
  | .strong _ toks :: rest, currentIndex =>
    let result := processInlineTokens toks currentIndex
    let req := DocRequest.updateTextStyle currentIndex
      (currentIndex + result.1.length) .bold
    let r2 := processInlineTokens rest (currentIndex + result.1.length)
    (result.1 ++ r2.1, result.2 ++ [req] ++ r2.2)
  | .em _ toks :: rest, currentIndex =>
    let result := processInlineTokens toks currentIndex
    let req := DocRequest.updateTextStyle currentIndex
      (currentIndex + result.1.length) .italic
    let r2 := processInlineTokens rest (currentIndex + result.1.length)
    (result.1 ++ r2.1, result.2 ++ [req] ++ r2.2)
  | .link href _ toks :: rest, currentIndex =>
    let linkText := getPlainText toks
    let req := DocRequest.updateTextStyle currentIndex
      (currentIndex + linkText.length) (.linkStyle href)
    let r2 := processInlineTokens rest (currentIndex + linkText.length)
    (linkText ++ r2.1, req :: r2.2)
  | .codespan txt :: rest, currentIndex =>
    let codeText := decodeEntities txt
    let req := DocRequest.updateTextStyle currentIndex
      (currentIndex + codeText.length) .codespanStyle
    let r2 := processInlineTokens rest (currentIndex + codeText.length)
    (codeText ++ r2.1, req :: r2.2)
  | .text txt toks :: rest, currentIndex =>
    if toks.isEmpty then
      let plainText := decodeEntities txt
      let r2 := processInlineTokens rest (currentIndex + plainText.length)
      (plainText ++ r2.1, r2.2)
    else
      let result := processInlineTokens toks currentIndex
      let r2 := processInlineTokens rest (currentIndex + result.1.length)
      (result.1 ++ r2.1, result.2 ++ r2.2)
  | .other _ txt toks :: rest, currentIndex =>
    if toks.isEmpty then
      let defaultText := decodeEntities txt
      let r2 := processInlineTokens rest (currentIndex + defaultText.length)
      (defaultText ++ r2.1, r2.2)
    else
      let result := processInlineTokens toks currentIndex
      let r2 := processInlineTokens rest (currentIndex + result.1.length)
      (result.1 ++ r2.1, result.2 ++ r2.2)

/-- The `headingStyles` lookup with the `|| 'HEADING_1'` fallback. -/
def headingStyles (depth : Nat) : String :=
  match depth with
  | 1 => "HEADING_1"
  | 2 => "HEADING_2"
  | 3 => "HEADING_3"
  | 4 => "HEADING_4"
  | 5 => "HEADING_5"
  | 6 => "HEADING_6"
  | _ => "HEADING_1"

/-- `processHeading` from `markdown-parser.js`. -/
def processHeading (depth : Nat) (toks : List InlineToken) (startIndex : Nat) :
    TokenResult :=
  let r := processInlineTokens toks startIndex
  let text := r.1 ++ ['\n']
  let endIndex := startIndex + text.length
  { text
    requests := DocRequest.updateParagraphStyle startIndex (endIndex - 1)
      (.named (headingStyles depth)) :: r.2 }

/-- `processParagraph` from `markdown-parser.js`. -/
def processParagraph (toks : List InlineToken) (startIndex : Nat) : TokenResult :=
  let r := processInlineTokens toks startIndex
  { text := r.1 ++ ['\n'], requests := r.2 }

/-- The inner loop over one list item's child tokens.  As in the source, the
cursor is not advanced between children of the same item (it advances only
once per item, by the whole item's text length). -/
def processListItemTokens : List BlockToken → Nat → Str × List DocRequest
  | [], _ => ([], [])
  | .textBlock _ toks :: rest, currentIndex =>
    let r := processInlineTokens toks currentIndex
    let r2 := processListItemTokens rest currentIndex
    (r.1 ++ r2.1, r.2 ++ r2.2)
  | .paragraph _ toks :: rest, currentIndex =>
    let r := processInlineTokens toks currentIndex
    let r2 := processListItemTokens rest currentIndex
    (r.1 ++ r2.1, r.2 ++ r2.2)
  | t :: rest, currentIndex =>
    let r2 := processListItemTokens rest currentIndex
    (decodeEntities (getPlainTextBlocks [t]) ++ r2.1, r2.2)

/-- The loop over list items in `processList`: each item contributes its text
plus a terminator and advances the running cursor by that length. -/
def processListItems : List (List BlockToken) → Nat → Str × List DocRequest
  | [], _ => ([], [])
  | itemTokens :: rest, currentIndex =>
    let r := processListItemTokens itemTokens currentIndex
    let itemText := r.1 ++ ['\n']
    let r2 := processListItems rest (currentIndex + itemText.length)
    (itemText ++ r2.1, r.2 ++ r2.2)

/-- `processList` from `markdown-parser.js`: item texts plus a single
`createParagraphBullets` request over the whole list range, excluding the
final terminator. -/
def processList (ordered : Bool) (items : List (List BlockToken))
    (startIndex : Nat) : TokenResult :=
  let r := processListItems items startIndex
  { text := r.1
    requests := r.2 ++ [DocRequest.createParagraphBullets startIndex
      (startIndex + r.1.length - 1)
      (if ordered then "NUMBERED_DECIMAL_NESTED" else "BULLET_DISC_CIRCLE_SQUARE")] }

/-- `processTable` from `markdown-parser.js`: emits a single placeholder
terminator and a deferred table descriptor (`textIndex` is stamped later by
`parseMarkdown`; it is initialised to 0 here). -/
def processTable (header : List (List InlineToken))
    (rows : List (List (List InlineToken))) (startIndex : Nat) : TokenResult :=
  let numRows := rows.length + 1
  let numCols := header.length
  let headerCells := header.map (fun h => decodeEntities (getPlainText h))
  let cells := headerCells ::
    rows.map (fun row => row.map (fun cell => decodeEntities (getPlainText cell)))
  { text := ['\n']
    requests := []
    tableInfo := some
      { startIndex, numRows, numCols, cells, headerCells, textIndex := 0 } }

/-- `processCodeBlock` from `markdown-parser.js`. -/
def processCodeBlock (txt : Str) (startIndex : Nat) : TokenResult :=
  let text := txt ++ ['\n']
  let endIndex := startIndex + text.length
  { text
    requests := [DocRequest.updateTextStyle startIndex (endIndex - 1) .codeBlockStyle] }

/-- One blockquote child's contribution: a paragraph child's plain text, or
the child's own `text` field when present (with a terminator each); other
children contribute nothing. -/
def blockquoteChildText : BlockToken → Str
  | .paragraph _ ptoks => decodeEntities (getPlainText ptoks) ++ ['\n']
  | .heading _ txt _ => if txt.isEmpty then [] else decodeEntities txt ++ ['\n']
  | .code txt => if txt.isEmpty then [] else decodeEntities txt ++ ['\n']
  | .blockquote txt _ => if txt.isEmpty then [] else decodeEntities txt ++ ['\n']
  | .textBlock txt _ => if txt.isEmpty then [] else decodeEntities txt ++ ['\n']
  | .other _ txt => if txt.isEmpty then [] else decodeEntities txt ++ ['\n']
  | _ => []

/-- `processBlockquote` from `markdown-parser.js`: concatenated child texts,
one indent/border paragraph operation and one foreground-colour text
operation over the pre-terminator range. -/
def processBlockquote (toks : List BlockToken) (startIndex : Nat) : TokenResult :=
  let text := (toks.map blockquoteChildText).flatten
  let endIndex := startIndex + text.length
  { text
    requests :=
      [DocRequest.updateParagraphStyle startIndex (endIndex - 1) .blockquoteBorder,
       DocRequest.updateTextStyle startIndex (endIndex - 1) .blockquoteColor] }

/-- `processHorizontalRule` from `markdown-parser.js`: forty box-drawing
characters plus terminator, with colour/size and alignment operations over
the rule only. -/
def processHorizontalRule (startIndex : Nat) : TokenResult :=
  let line := List.replicate 40 '━'
  let text := line ++ ['\n']
  { text
    requests :=
      [DocRequest.updateTextStyle startIndex (startIndex + line.length) .hrColor,
       DocRequest.updateParagraphStyle startIndex (startIndex + line.length) .hrFormat] }

/-- `processToken` from `markdown-parser.js`: dispatch on the block token
kind; unrecognized kinds (including block-level `text` tokens) hit the
`default` branch and contribute nothing. -/
def processToken : BlockToken → Nat → TokenResult
  | .heading depth _ toks, startIndex => processHeading depth toks startIndex
  | .paragraph _ toks, startIndex => processParagraph toks startIndex
  | .list ordered items, startIndex => processList ordered items startIndex
  | .table header rows, startIndex => processTable header rows startIndex
  | .code txt, startIndex => processCodeBlock txt startIndex
  | .blockquote _ toks, startIndex => processBlockquote toks startIndex
  | .hr, startIndex => processHorizontalRule startIndex
  | .space, _ => { text := ['\n'], requests := [] }
  | .textBlock _ _, _ => { text := [], requests := [] }
  | .other _ _, _ => { text := [], requests := [] }

/-- The state threaded through `parseMarkdown`'s loop; `currentIndex` is the
shared cursor (1-based) and is also the final cursor of the whole pass. -/
structure ParseState where
  text : Str
  requests : List DocRequest
  tables : List TableInfo
  currentIndex : Nat
deriving DecidableEq

/-- The loop body of `parseMarkdown`: process one token, entity-decode its
text a second time, append, stamp any table descriptor with the current
cursor, and advance the cursor by the decoded length. -/
def parseMarkdownLoop : List BlockToken → ParseState → ParseState
  | [], st => st
  | tok :: rest, st =>
    let result := processToken tok st.currentIndex
    let resultText := decodeEntities result.text
    let tables :=
      match result.tableInfo with
      | some ti => st.tables ++ [{ ti with textIndex := st.currentIndex }]
      | none => st.tables
    parseMarkdownLoop rest
      { text := st.text ++ resultText
        requests := st.requests ++ result.requests
        tables
        currentIndex := st.currentIndex + resultText.length }

/-- `parseMarkdown` from `markdown-parser.js`, as a function of the token
stream supplied by the external lexer; the starting cursor is 1. -/
def parseMarkdown (tokens : List BlockToken) : ParseState :=
  parseMarkdownLoop tokens
    { text := [], requests := [], tables := [], currentIndex := 1 }

/-- Whether a request is a `createParagraphBullets` request. -/
def DocRequest.isBullet : DocRequest → Bool
  | .createParagraphBullets _ _ _ => true
  | _ => false

/-- Whether a request is an `insertText` request. -/
def DocRequest.isInsert : DocRequest → Bool
  | .insertText _ _ => true
  | _ => false

/-- Whether a request is a range-styling request. -/
def DocRequest.isStyle : DocRequest → Bool
  | .updateTextStyle _ _ _ => true
  | .updateParagraphStyle _ _ _ => true
  | _ => false

/-- `generateDocRequests` from `markdown-parser.js`, downstream of the
external lexer: compile the token stream, then assemble one `insertText`
request at the target index followed by all bullet requests and then all
remaining requests.  (The smart-typography pre-filter acts on the raw
markdown string before lexing and is modelled separately as
`smartTypography`.) -/
def generateDocRequests (tokens : List BlockToken) (insertAt : Nat) : ParseState :=
  let r := parseMarkdown tokens
  let bulletRequests := r.requests.filter (fun q => q.isBullet)
  let otherRequests := r.requests.filter (fun q => !q.isBullet)
  { text := r.text
    requests := DocRequest.insertText insertAt r.text :: bulletRequests ++ otherRequests
    tables := r.tables
    currentIndex := r.currentIndex }

/-! ## Smart typography (`smartTypography` in `markdown-parser.js`)

Each chained `.replace(/regex/g, …)` call is modelled by a character-level
scanner with the exact semantics of a global regex replace: leftmost
non-overlapping matches, scanning resuming after each match.  All the
quote/dash/apostrophe rules share the shape `(capture) literal (capture)`
replaced by `$1 <char> $2`, modelled once as `sepScan`. -/

/-- The JavaScript `\s` character class (also the set stripped by
`String.prototype.trim`), restricted to the code points below 0x10000. -/
def isJsSpace (c : Char) : Bool :=
  c = ' ' || c = '\t' || c = '\n' || c = Char.ofNat 11 || c = Char.ofNat 12 ||
  c = '\r' || c = Char.ofNat 0xa0 || c = Char.ofNat 0x1680 ||
  (Char.ofNat 0x2000 ≤ c && c ≤ Char.ofNat 0x200a) ||
  c = Char.ofNat 0x2028 || c = Char.ofNat 0x2029 || c = Char.ofNat 0x202f ||
  c = Char.ofNat 0x205f || c = Char.ofNat 0x3000 || c = Char.ofNat 0xfeff

/-- The JavaScript `\S` class. -/
def notSpace (c : Char) : Bool := !isJsSpace c

/-- The JavaScript `\w` class. -/
def isWordChar (c : Char) : Bool :=
  ('a' ≤ c && c ≤ 'z') || ('A' ≤ c && c ≤ 'Z') || ('0' ≤ c && c ≤ '9') || c = '_'

/-- The JavaScript `\d` class. -/
def isDigitCh (c : Char) : Bool := '0' ≤ c && c ≤ '9'

/-- If `pat` is a prefix of `s`, the remainder of `s` after it. -/
def dropPat : Str → Str → Option Str
  | [], s => some s
  | _ :: _, [] => none
  | p :: ps, c :: cs => if p = c then dropPat ps cs else none

/-- Fuelled worker for `sepScan`; fuel equal to the input length suffices
since every step consumes at least one input position. -/
def sepScanGo (sep : Str) (g1 g2 : Char → Bool) (repl : Char) :
    Nat → Str → Str
  | _, [] => []
  | 0, s => s
  | fuel + 1, a :: rest =>
    match dropPat sep rest with
    | some (b :: rest') =>
      if g1 a && g2 b then a :: repl :: b :: sepScanGo sep g1 g2 repl fuel rest'
      else a :: sepScanGo sep g1 g2 repl fuel rest
    | _ => a :: sepScanGo sep g1 g2 repl fuel rest

/-- Global replace of `(g1) sep (g2)` by `$1 repl $2`: the common shape of
the dash, apostrophe and mid-string quote rules. -/
def sepScan (sep : Str) (g1 g2 : Char → Bool) (repl : Char) (s : Str) : Str :=
  sepScanGo sep g1 g2 repl s.length s

/-- `.replace(/(\S)---(\S)/g, '$1—$2')` -/
def emDashMid (s : Str) : Str := sepScan ['-', '-', '-'] notSpace notSpace '—' s

/-- `.replace(/(\S)---(\s)/g, '$1—$2')` -/
def emDashTrail (s : Str) : Str := sepScan ['-', '-', '-'] notSpace isJsSpace '—' s

/-- `.replace(/(\s)---(\S)/g, '$1—$2')` -/
def emDashLead (s : Str) : Str := sepScan ['-', '-', '-'] isJsSpace notSpace '—' s

/-- `.replace(/(\d)--(\d)/g, '$1–$2')` -/
def enDashNum (s : Str) : Str := sepScan ['-', '-'] isDigitCh isDigitCh '–' s

/-- `.replace(/(\S)--(\S)/g, '$1–$2')` -/
def enDashMid (s : Str) : Str := sepScan ['-', '-'] notSpace notSpace '–' s

/-- Fuelled scanner for `.replace(/\.\.\./g, '…')`: when three dots match at
the current position they are replaced and skipped, otherwise one character
is emitted and the scan advances. -/
def ellipsisGo : Nat → Str → Str
  | _, [] => []
  | 0, s => s
  | fuel + 1, c :: rest =>
    match dropPat ['.', '.', '.'] (c :: rest) with
    | some rest' => '…' :: ellipsisGo fuel rest'
    | none => c :: ellipsisGo fuel rest

/-- `.replace(/\.\.\./g, '…')` -/
def ellipsisScan (s : Str) : Str := ellipsisGo s.length s

/-- The `[\s(]` context class of the opening-quote rules. -/
def quoteCtx (c : Char) : Bool := isJsSpace c || c = '('

/-- An opening-quote rule `(^|[\s(])q(\S)` → `$1 repl $2`: a match anchored
at the string start is handled first, then the scan continues with the
mid-string shape. -/
def anchoredQuote (q : Char) (repl : Char) : Str → Str
  | q' :: b :: rest =>
    if q' = q ∧ notSpace b then
      repl :: b :: sepScan [q] quoteCtx notSpace repl rest
    else sepScan [q] quoteCtx notSpace repl (q' :: b :: rest)
  | s => sepScan [q] quoteCtx notSpace repl s

/-- `.replace(/(^|[\s(])"(\S)/g, '$1“$2')` -/
def openDouble (s : Str) : Str := anchoredQuote dquote '“' s

/-- `.replace(/"/g, '”')` -/
def closeDouble (s : Str) : Str := s.map fun c => if c = dquote then '”' else c

/-- `.replace(/(\w)'(\w)/g, '$1’$2')` -/
def aposWord (s : Str) : Str := sepScan [apos] isWordChar isWordChar '’' s

/-- `.replace(/(^|[\s(])'(\S)/g, '$1‘$2')` -/
def openSingle (s : Str) : Str := anchoredQuote apos '‘' s

/-- `.replace(/'/g, '’')` -/
def closeSingle (s : Str) : Str := s.map fun c => if c = apos then '’' else c

/-- JavaScript `String.prototype.trim`. -/
def jsTrim (s : Str) : Str :=
  ((s.dropWhile isJsSpace).reverse.dropWhile isJsSpace).reverse

/-- The `[\s\-:|]` class of the table delimiter row test. -/
def delimCls (c : Char) : Bool := isJsSpace c || c = '-' || c = ':' || c = '|'

/-- `/^\|[\s\-:|]+\|$/` on a single line. -/
def isTableDelimRow : Str → Bool
  | '|' :: rest =>
    !rest.dropLast.isEmpty && rest.dropLast.all delimCls && rest.getLast? == some '|'
  | _ => false

/-- `/^(\-{3,}|_{3,}|\*{3,})$/` on a single line. -/
def isHrLine (l : Str) : Bool :=
  decide (3 ≤ l.length) &&
    (l.all (· == '-') || l.all (· == '_') || l.all (· == '*'))

/-- The line-level exemption check of `smartTypography`: table delimiter
rows and horizontal-rule-only lines are skipped. -/
def smartLineExempt (line : Str) : Bool :=
  isTableDelimRow (jsTrim line) || isHrLine (jsTrim line)

/-- The per-line body of `smartTypography`: either the exempted line
unchanged, or the eleven replacement rules applied in source order. -/
def smartLine (line : Str) : Str :=
  if smartLineExempt line then line
  else
    closeSingle (openSingle (aposWord (closeDouble (openDouble
      (ellipsisScan (enDashMid (enDashNum (emDashLead (emDashTrail
        (emDashMid line))))))))))

/-- `text.split('\n')`. -/
def splitNl : Str → List Str
  | [] => [[]]
  | '\n' :: rest => [] :: splitNl rest
  | c :: rest =>
    match splitNl rest with
    | l :: ls => (c :: l) :: ls
    | [] => [[c]]

/-- `lines.join('\n')`. -/
def joinNl : List Str → Str
  | [] => []
  | [l] => l
  | l :: rest => l ++ '\n' :: joinNl rest

/-- `smartTypography` from `markdown-parser.js`. -/
def smartTypography (text : Str) : Str :=
  joinNl ((splitNl text).map smartLine)

/-! ## Live document model and table materialization

`processTables` / `populateTable` / `findTablesInDoc` in `cli/index.js`
run against the Google Docs live-document collaborator (`documents.get` /
`documents.batchUpdate`).  The collaborator itself is not part of this
repository, so the document is modelled from the spec's contract: a body
of paragraph and table elements addressed by 1-based character indices,
where a paragraph occupies its text plus one terminator index, a table
occupies one index for the table element plus, per row, one index for the
row and, per cell, one index for the cell plus the cell's single paragraph
(text plus terminator), and positions are recomputed from the structure on
every query.  `updateTextStyle` requests do not move any index. -/

/-- Modelled from the spec: one body element of the live document — a
paragraph, or a table whose cells each hold one paragraph of text. -/
inductive DocElement where
  | para (text : Str)
  | table (cells : List (List Str))
deriving DecidableEq

/-- Modelled from the spec: the live document body. -/
abbrev Document := List DocElement

/-- Modelled from the spec: index footprint of one table cell. -/
def cellSize (c : Str) : Nat := c.length + 2

/-- Modelled from the spec: index footprint of one table row. -/
def rowSize (r : List Str) : Nat := 1 + (r.map cellSize).sum

/-- Modelled from the spec: index footprint of a whole table element. -/
def tableSize (cells : List (List Str)) : Nat := 1 + (cells.map rowSize).sum

/-- Modelled from the spec: index footprint of one body element. -/
def elemSize : DocElement → Nat
  | .para t => t.length + 1
  | .table cells => tableSize cells

/-- Start and end index of a cell's first paragraph, as returned by the
document query. -/
structure CellPos where
  startIndex : Nat
  endIndex : Nat
deriving DecidableEq

/-- The per-table data `findTablesInDoc` extracts: the table's start index
and each cell's first-paragraph position. -/
structure TableData where
  startIndex : Nat
  rows : List (List CellPos)
deriving DecidableEq

/-- Modelled from the spec: positions of the cells of one row, `p` being
the index of the row's first cell element. -/
def rowCellPositions : Nat → List Str → List CellPos
  | _, [] => []
  | p, c :: cs => ⟨p + 1, p + 1 + c.length + 1⟩ :: rowCellPositions (p + cellSize c) cs

/-- Modelled from the spec: positions of all rows of a table, `p` being the
index of the first row element. -/
def tableRowPositions : Nat → List (List Str) → List (List CellPos)
  | _, [] => []
  | p, r :: rs => rowCellPositions (p + 1) r :: tableRowPositions (p + rowSize r) rs

/-- Worker for `findTablesInDoc`, threading the running body index. -/
def findTablesInDocAux : Nat → Document → List TableData
  | _, [] => []
  | p, .para t :: rest => findTablesInDocAux (p + t.length + 1) rest
  | p, .table cells :: rest =>
    ⟨p, tableRowPositions (p + 1) cells⟩ :: findTablesInDocAux (p + tableSize cells) rest

/-- `findTablesInDoc` from `cli/index.js`: scan the body in order and report
every table's start index and per-cell first-paragraph positions. -/
def findTablesInDoc (doc : Document) : List TableData := findTablesInDocAux 1 doc

/-- Modelled from the spec: insert text at index `i` inside a row's cells
(`p` is the index of the row's first cell element). -/
def insertIntoRow : Nat → Nat → Str → List Str → List Str
  | _, _, _, [] => []
  | p, i, t, c :: cs =>
    if p + 1 ≤ i ∧ i ≤ p + 1 + c.length then
      (c.take (i - (p + 1)) ++ t ++ c.drop (i - (p + 1))) :: cs
    else c :: insertIntoRow (p + cellSize c) i t cs

/-- Modelled from the spec: insert text at index `i` inside a table's cells
(`p` is the index of the first row element). -/
def insertIntoCells : Nat → Nat → Str → List (List Str) → List (List Str)
  | _, _, _, [] => []
  | p, i, t, r :: rs =>
    if i < p + rowSize r then insertIntoRow (p + 1) i t r :: rs
    else r :: insertIntoCells (p + rowSize r) i t rs

/-- Modelled from the spec: the `insertText` mutation — text is spliced into
the paragraph (or cell paragraph) whose index range contains `i`. -/
def insertTextAux : Nat → Document → Nat → Str → Document
  | _, [], _, _ => []
  | p, .para tx :: rest, i, t =>
    if p ≤ i ∧ i ≤ p + tx.length then
      .para (tx.take (i - p) ++ t ++ tx.drop (i - p)) :: rest
    else .para tx :: insertTextAux (p + tx.length + 1) rest i t
  | p, .table cells :: rest, i, t =>
    if p ≤ i ∧ i < p + tableSize cells then
      .table (insertIntoCells (p + 1) i t cells) :: rest
    else .table cells :: insertTextAux (p + tableSize cells) rest i t

/-- Modelled from the spec: an empty `rows × cols` table. -/
def emptyCells (rows cols : Nat) : List (List Str) :=
  List.replicate rows (List.replicate cols [])

/-- Modelled from the spec: the `insertTable` mutation — the paragraph
containing index `i` is split there and the new empty table placed between
the two halves. -/
def insertTableAux : Nat → Document → Nat → Nat → Nat → Document
  | _, [], _, _, _ => []
  | p, .para tx :: rest, i, r, c =>
    if p ≤ i ∧ i ≤ p + tx.length then
      .para (tx.take (i - p)) :: .table (emptyCells r c) :: .para (tx.drop (i - p)) :: rest
    else .para tx :: insertTableAux (p + tx.length + 1) rest i r c
  | p, .table cells :: rest, i, r, c =>
    .table cells :: insertTableAux (p + tableSize cells) rest i r c

/-- Modelled from the spec: apply one batchUpdate request to the document.
Style requests do not change the body text or any index. -/
def applyRequest (d : Document) : DocRequest → Document
  | .insertText i t => insertTextAux 1 d i t
  | .insertTable r c i => insertTableAux 1 d i r c
  | _ => d

/-- Modelled from the spec: apply a batch of requests in order. -/
def applyRequests (d : Document) (rs : List DocRequest) : Document :=
  rs.foldl applyRequest d

/-- The cell-insertion requests built by `populateTable`: rows then columns
in reverse order, one `insertText` at the cell's queried start index per
non-empty cell whose queried position exists. -/
def cellInsertRequests (tableInDoc : TableData) (cells : List (List Str)) :
    List DocRequest :=
  (List.range cells.length).reverse.flatMap fun r =>
    match cells.get? r with
    | none => []
    | some row =>
      (List.range row.length).reverse.filterMap fun c =>
        match (tableInDoc.rows.get? r).bind (fun rw => rw.get? c), row.get? c with
        | some pos, some cellText =>
          if cellText ≠ [] then some (.insertText pos.startIndex cellText) else none
        | _, _ => none

/-- Result of one `populateTable` call: the document after the cell batch,
and the two request batches it issued. -/
structure PopulateResult where
  doc : Document
  insertBatch : List DocRequest
  headerBatch : List DocRequest
deriving DecidableEq

/-- `populateTable` from `cli/index.js`: insert each cell's text at the
queried positions (reverse row/column order, via one batch), then re-query
the document and bold the first table's header-row cells at their freshly
discovered positions. -/
def populateTable (doc : Document) (tableInDoc : TableData)
    (tableData : TableInfo) : PopulateResult :=
  let requests := cellInsertRequests tableInDoc tableData.cells
  let doc1 := applyRequests doc requests
  let updatedTables := findTablesInDoc doc1
  let headerRequests :=
    match updatedTables with
    | [] => []
    | firstTable :: _ =>
      (firstTable.rows.headD []).filterMap fun cell =>
        if cell.startIndex < cell.endIndex - 1 then
          some (.updateTextStyle cell.startIndex (cell.endIndex - 1) .bold)
        else none
  { doc := applyRequests doc1 headerRequests
    insertBatch := requests
    headerBatch := headerRequests }

/-- The state accumulated by `processTables`: the live document plus, for
inspection, the per-table request batches issued. -/
structure MaterializeState where
  doc : Document
  insertBatches : List (List DocRequest)
  headerBatches : List (List DocRequest)
deriving DecidableEq

/-- One iteration of the `processTables` loop: insert the table structure at
its anchor, re-query, and populate `tablesInDoc[tablesInDoc.length - 1]`
with this descriptor's cells. -/
def processTablesStep (st : MaterializeState) (ti : TableInfo) : MaterializeState :=
  let doc1 := applyRequest st.doc (.insertTable ti.numRows ti.numCols ti.textIndex)
  let tablesInDoc := findTablesInDoc doc1
  match tablesInDoc.getLast? with
  | none => { st with doc := doc1 }
  | some lastTable =>
    let pr := populateTable doc1 lastTable ti
    { doc := pr.doc
      insertBatches := st.insertBatches ++ [pr.insertBatch]
      headerBatches := st.headerBatches ++ [pr.headerBatch] }

/-- `processTables` from `cli/index.js`: materialize the collected table
descriptors in reverse order against the live document. -/
def processTables (doc : Document) (tables : List TableInfo) : MaterializeState :=
  tables.reverse.foldl processTablesStep
    { doc, insertBatches := [], headerBatches := [] }

/-- The cell contents of every table element of the document, in body
order. -/
def docTableCells (doc : Document) : List (List (List Str)) :=
  doc.filterMap fun e =>
    match e with
    | .table cells => some cells
    | .para _ => none

/-! ## Scenario token streams

Modelled from the spec: the Token Source collaborator (the `marked` lexer)
is outside this repository, so its output for each scenario's markdown
input is transcribed per the spec's Token Source contract. -/

/-- Modelled from the spec: lexer output for Scenario A's input
`# Title\n**bold** text`. -/
def scenarioATokens : List BlockToken :=
  [.heading 1 "Title".toList [.text "Title".toList []],
   .paragraph "**bold** text".toList
     [.strong "bold".toList [.text "bold".toList []],
      .text " text".toList []]]

/-- Modelled from the spec: lexer output for Scenario B's input
`- a\n- b`. -/
def scenarioBTokens : List BlockToken :=
  [.list false
    [[.textBlock "a".toList [.text "a".toList []]],
     [.textBlock "b".toList [.text "b".toList []]]]]

/-- Modelled from the spec: lexer output for Scenario D's input — a
paragraph `Intro` followed by a table with header `H1 | H2` and two data
rows `a | b` and `c | d`. -/
def scenarioDTokens : List BlockToken :=
  [.paragraph "Intro".toList [.text "Intro".toList []],
   .table [[.text "H1".toList []], [.text "H2".toList []]]
     [[[.text "a".toList []], [.text "b".toList []]],
      [[.text "c".toList []], [.text "d".toList []]]]]

/-- The deferred descriptor the compiler produces for Scenario D's table. -/
def scenarioDInfo : TableInfo :=
  { startIndex := 7
    numRows := 3
    numCols := 2
    cells := [["H1".toList, "H2".toList], ["a".toList, "b".toList],
      ["c".toList, "d".toList]]
    headerCells := ["H1".toList, "H2".toList]
    textIndex := 7 }

/-- Modelled from the spec: lexer output for a document holding two one-cell
tables (`A` and `B`) separated by a paragraph `x`. -/
def twoTableTokens : List BlockToken :=
  [.table [[.text "A".toList []]] [],
   .paragraph "x".toList [.text "x".toList []],
   .table [[.text "B".toList []]] []]

/-- The two deferred descriptors the compiler produces for `twoTableTokens`. -/
def twoTableInfos : List TableInfo :=
  [{ startIndex := 1, numRows := 1, numCols := 1, cells := [["A".toList]],
     headerCells := ["A".toList], textIndex := 1 },
   { startIndex := 4, numRows := 1, numCols := 1, cells := [["B".toList]],
     headerCells := ["B".toList], textIndex := 4 }]

/-! ## Ampersand-free token predicates

The second entity-decode in `parseMarkdown` is the identity exactly when
no text is left containing an ampersand after the block handlers' own
decode; the following decidable predicates state that every `text` field
of a token tree is ampersand-free.  `maxBound` extracts the larger range
bound of a request. -/

def ampFreeStr (s : Str) : Bool := s.all (fun c => c != '&')

def inlinesAmpFree : List InlineToken → Bool
  | [] => true
  | .strong t toks :: rest => ampFreeStr t && inlinesAmpFree toks && inlinesAmpFree rest
  | .em t toks :: rest => ampFreeStr t && inlinesAmpFree toks && inlinesAmpFree rest
  | .link _ t toks :: rest => ampFreeStr t && inlinesAmpFree toks && inlinesAmpFree rest
  | .codespan t :: rest => ampFreeStr t && inlinesAmpFree rest
  | .text t toks :: rest => ampFreeStr t && inlinesAmpFree toks && inlinesAmpFree rest
  | .other _ t toks :: rest => ampFreeStr t && inlinesAmpFree toks && inlinesAmpFree rest

def DocRequest.maxBound : DocRequest → Nat
  | .updateTextStyle s e _ => max s e
  | .updateParagraphStyle s e _ => max s e
  | .createParagraphBullets s e _ => max s e
  | .insertText i _ => i
  | .insertTable _ _ i => i

def cellsAmpFree : List (List InlineToken) → Bool
  | [] => true
  | c :: rest => inlinesAmpFree c && cellsAmpFree rest

def rowsAmpFree : List (List (List InlineToken)) → Bool
  | [] => true
  | r :: rest => cellsAmpFree r && rowsAmpFree rest

mutual
def blocksAmpFree : List BlockToken → Bool
  | [] => true
  | .heading _ t toks :: rest => ampFreeStr t && inlinesAmpFree toks && blocksAmpFree rest
  | .paragraph t toks :: rest => ampFreeStr t && inlinesAmpFree toks && blocksAmpFree rest
  | .list _ items :: rest => itemsAmpFree items && blocksAmpFree rest
  | .table header rows :: rest => cellsAmpFree header && rowsAmpFree rows && blocksAmpFree rest
  | .code t :: rest => ampFreeStr t && blocksAmpFree rest
  | .blockquote t toks :: rest => ampFreeStr t && blocksAmpFree toks && blocksAmpFree rest
  | .hr :: rest => blocksAmpFree rest
  | .space :: rest => blocksAmpFree rest
  | .textBlock t toks :: rest => ampFreeStr t && inlinesAmpFree toks && blocksAmpFree rest
  | .other _ t :: rest => ampFreeStr t && blocksAmpFree rest

def itemsAmpFree : List (List BlockToken) → Bool
  | [] => true
  | item :: rest => blocksAmpFree item && itemsAmpFree rest
end

/-! ## Request taxonomy helpers -/

@[simp] theorem isStyle_uts (s e : Nat) (a : TextAttr) :
    (DocRequest.updateTextStyle s e a).isStyle = true := rfl

@[simp] theorem isStyle_ups (s e : Nat) (a : ParaAttr) :
    (DocRequest.updateParagraphStyle s e a).isStyle = true := rfl

@[simp] theorem isStyle_bullet (s e : Nat) (p : String) :
    (DocRequest.createParagraphBullets s e p).isStyle = false := rfl

@[simp] theorem isBullet_cpb (s e : Nat) (p : String) :
    (DocRequest.createParagraphBullets s e p).isBullet = true := rfl

@[simp] theorem isBullet_uts (s e : Nat) (a : TextAttr) :
    (DocRequest.updateTextStyle s e a).isBullet = false := rfl

@[simp] theorem isBullet_ups (s e : Nat) (a : ParaAttr) :
    (DocRequest.updateParagraphStyle s e a).isBullet = false := rfl

@[simp] theorem isInsert_ins (i : Nat) (t : Str) :
    (DocRequest.insertText i t).isInsert = true := rfl

theorem style_not_bullet (q : DocRequest) (h : q.isStyle = true) :
    q.isBullet = false := by
  cases q <;> simp_all [DocRequest.isStyle, DocRequest.isBullet]

theorem style_or_bullet_not_insert (q : DocRequest)
    (h : q.isStyle = true ∨ q.isBullet = true) : q.isInsert = false := by
  cases q <;> simp_all [DocRequest.isStyle, DocRequest.isBullet, DocRequest.isInsert]

/-- The inline recursor only emits range-styling requests. -/
theorem processInlineTokens_all_style (toks : List InlineToken) (cur : Nat) :
    ∀ q ∈ (processInlineTokens toks cur).2, q.isStyle = true := by
  induction toks, cur using processInlineTokens.induct <;>
    simp_all [processInlineTokens, or_imp, forall_and, forall_eq]

theorem processListItemTokens_all_style (toks : List BlockToken) (cur : Nat) :
    ∀ q ∈ (processListItemTokens toks cur).2, q.isStyle = true := by
  induction toks, cur using processListItemTokens.induct <;>
    simp_all [processListItemTokens, or_imp, forall_and, forall_eq] <;>
    exact fun q hq => processInlineTokens_all_style _ _ q hq

theorem processListItems_all_style (items : List (List BlockToken)) (cur : Nat) :
    ∀ q ∈ (processListItems items cur).2, q.isStyle = true := by
  induction items, cur using processListItems.induct with
  | case1 => simp [processListItems]
  | case2 itemTokens rest cur r itemText ih =>
    intro q hq
    simp only [processListItems, List.mem_append] at hq
    rcases hq with h | h
    · exact processListItemTokens_all_style _ _ q h
    · exact ih q (by simpa [itemText, r] using h)

/-- Every request a block handler emits is a style or a bullet request —
in particular, never an `insertText` or `insertTable`. -/
theorem processToken_requests_kinds (tok : BlockToken) (s : Nat) :
    ∀ q ∈ (processToken tok s).requests, q.isStyle = true ∨ q.isBullet = true := by
  cases tok <;>
    simp_all [processToken, processHeading, processParagraph, processList,
      processTable, processCodeBlock, processBlockquote, processHorizontalRule,
      or_imp, forall_and, forall_eq, DocRequest.isBullet]
  case heading d t toks =>
    exact fun q hq => .inl (processInlineTokens_all_style _ _ q hq)
  case paragraph t toks =>
    exact fun q hq => .inl (processInlineTokens_all_style _ _ q hq)
  case list ordered items =>
    exact fun q hq => .inl (processListItems_all_style _ _ q hq)

theorem parseMarkdownLoop_requests_kinds (toks : List BlockToken) (st : ParseState)
    (h : ∀ q ∈ st.requests, q.isStyle = true ∨ q.isBullet = true) :
    ∀ q ∈ (parseMarkdownLoop toks st).requests,
      q.isStyle = true ∨ q.isBullet = true := by
  induction toks generalizing st with
  | nil => simpa [parseMarkdownLoop] using h
  | cons tok rest ih =>
    simp only [parseMarkdownLoop]
    apply ih
    intro q hq
    simp only [List.mem_append] at hq
    rcases hq with hq | hq
    · exact h q hq
    · exact processToken_requests_kinds tok st.currentIndex q hq

/-- The compiler emits only style and bullet requests. -/
theorem parseMarkdown_requests_kinds (tokens : List BlockToken) :
    ∀ q ∈ (parseMarkdown tokens).requests,
      q.isStyle = true ∨ q.isBullet = true :=
  parseMarkdownLoop_requests_kinds tokens _ (by simp)

/-! ## Ampersand-free compilation lemmas -/

theorem ampFreeStr_append (a b : Str) :
    ampFreeStr (a ++ b) = (ampFreeStr a && ampFreeStr b) := by
  simp [ampFreeStr]

theorem ampFreeStr_cons (c : Char) (s : Str) :
    ampFreeStr (c :: s) = ((c != '&') && ampFreeStr s) := rfl

theorem replaceAllGo_ampFree_id (repl ps : Str) (fuel : Nat) (s : Str)
    (hs : ampFreeStr s = true) :
    replaceAllGo ('&' :: ps) repl fuel s = s := by
  induction s generalizing fuel with
  | nil => cases fuel <;> rfl
  | cons c rest ih =>
    rw [ampFreeStr_cons, Bool.and_eq_true, bne_iff_ne] at hs
    cases fuel with
    | zero => rfl
    | succ fuel =>
      have hm : matchesPat ('&' :: ps) (c :: rest) = false := by
        show (('&' == c) && matchesPat ps rest) = false
        have hc : ('&' == c) = false := by
          rw [beq_eq_false_iff_ne]
          exact fun h2 => hs.1 h2.symm
        simp [hc]
      rw [replaceAllGo, if_neg (by simp [hm]), ih fuel hs.2]

theorem replaceAll_ampFree_id (repl ps : Str) (s : Str) (hs : ampFreeStr s = true) :
    replaceAll ('&' :: ps) repl s = s :=
  replaceAllGo_ampFree_id repl ps _ s hs

theorem decodeEntities_ampFree_id (s : Str) (hs : ampFreeStr s = true) :
    decodeEntities s = s := by
  show replaceAll ('&' :: "nbsp;".toList) " ".toList
    (replaceAll ('&' :: "gt;".toList) ">".toList
      (replaceAll ('&' :: "lt;".toList) "<".toList
        (replaceAll ('&' :: "amp;".toList) "&".toList
          (replaceAll ('&' :: "quot;".toList) [dquote]
            (replaceAll ('&' :: "#x27;".toList) [apos]
              (replaceAll ('&' :: "#39;".toList) [apos] s)))))) = s
  rw [replaceAll_ampFree_id _ _ _ hs, replaceAll_ampFree_id _ _ _ hs,
    replaceAll_ampFree_id _ _ _ hs, replaceAll_ampFree_id _ _ _ hs,
    replaceAll_ampFree_id _ _ _ hs, replaceAll_ampFree_id _ _ _ hs,
    replaceAll_ampFree_id _ _ _ hs]

theorem getPlainText_ampFree (toks : List InlineToken) :
    inlinesAmpFree toks = true → ampFreeStr (getPlainText toks) = true := by
  induction toks using getPlainText.induct with
  | case1 => exact fun _ => by simp [getPlainText, ampFreeStr]
  | case2 txt toks rest ih1 ih2 =>
    intro h
    simp only [inlinesAmpFree, Bool.and_eq_true] at h
    simp only [getPlainText, ampFreeStr_append, Bool.and_eq_true]
    exact ⟨by split; exacts [h.1.1, ih1 h.1.2], ih2 h.2⟩
  | case3 txt toks rest ih1 ih2 =>
    intro h
    simp only [inlinesAmpFree, Bool.and_eq_true] at h
    simp only [getPlainText, ampFreeStr_append, Bool.and_eq_true]
    exact ⟨by split; exacts [h.1.1, ih1 h.1.2], ih2 h.2⟩
  | case4 href txt toks rest ih1 ih2 =>
    intro h
    simp only [inlinesAmpFree, Bool.and_eq_true] at h
    simp only [getPlainText, ampFreeStr_append, Bool.and_eq_true]
    exact ⟨by split; exacts [h.1.1, ih1 h.1.2], ih2 h.2⟩
  | case5 txt rest ih =>
    intro h
    simp only [inlinesAmpFree, Bool.and_eq_true] at h
    simp only [getPlainText, ampFreeStr_append, Bool.and_eq_true]
    exact ⟨h.1, ih h.2⟩
  | case6 txt toks rest ih1 ih2 =>
    intro h
    simp only [inlinesAmpFree, Bool.and_eq_true] at h
    simp only [getPlainText, ampFreeStr_append, Bool.and_eq_true]
    exact ⟨by split; exacts [h.1.1, ih1 h.1.2], ih2 h.2⟩
  | case7 ty txt toks rest ih1 ih2 =>
    intro h
    simp only [inlinesAmpFree, Bool.and_eq_true] at h
    simp only [getPlainText, ampFreeStr_append, Bool.and_eq_true]
    exact ⟨by split; exacts [h.1.1, ih1 h.1.2], ih2 h.2⟩

theorem processInlineTokens_ok (toks : List InlineToken) (cur : Nat) :
    inlinesAmpFree toks = true →
    ampFreeStr (processInlineTokens toks cur).1 = true ∧
    ∀ q ∈ (processInlineTokens toks cur).2,
      q.maxBound ≤ cur + (processInlineTokens toks cur).1.length := by
  induction toks, cur using processInlineTokens.induct with
  | case1 cur =>
    intro _
    constructor
    · simp [processInlineTokens, ampFreeStr]
    · simp [processInlineTokens]
  | case2 text toks rest cur result ih1 ih2 =>
    intro h
    simp only [inlinesAmpFree, Bool.and_eq_true] at h
    obtain ⟨H1t, H1b⟩ := ih1 h.1.2
    obtain ⟨H2t, H2b⟩ := ih2 h.2
    constructor
    · simp only [processInlineTokens, result, ampFreeStr_append, Bool.and_eq_true]
      exact ⟨H1t, H2t⟩
    · intro q hq
      simp only [processInlineTokens, result, List.append_assoc, List.mem_append,
        List.mem_singleton, List.cons_append, List.nil_append, List.mem_cons] at hq
      simp only [processInlineTokens, result, List.length_append]
      rcases hq with hq | hq | hq
      · have := H1b q hq; omega
      · subst hq
        simp only [DocRequest.maxBound]
        exact Nat.max_le.mpr ⟨by omega, by omega⟩
      · have := H2b q hq
        simp only [result] at this
        omega
  | case3 text toks rest cur result ih1 ih2 =>
    intro h
    simp only [inlinesAmpFree, Bool.and_eq_true] at h
    obtain ⟨H1t, H1b⟩ := ih1 h.1.2
    obtain ⟨H2t, H2b⟩ := ih2 h.2
    constructor
    · simp only [processInlineTokens, result, ampFreeStr_append, Bool.and_eq_true]
      exact ⟨H1t, H2t⟩
    · intro q hq
      simp only [processInlineTokens, result, List.append_assoc, List.mem_append,
        List.mem_singleton, List.cons_append, List.nil_append, List.mem_cons] at hq
      simp only [processInlineTokens, result, List.length_append]
      rcases hq with hq | hq | hq
      · have := H1b q hq; omega
      · subst hq
        simp only [DocRequest.maxBound]
        exact Nat.max_le.mpr ⟨by omega, by omega⟩
      · have := H2b q hq
        simp only [result] at this
        omega
  | case4 href text toks rest cur linkText ih =>
    intro h
    simp only [inlinesAmpFree, Bool.and_eq_true] at h
    obtain ⟨H2t, H2b⟩ := ih h.2
    have hlt : ampFreeStr (getPlainText toks) = true := getPlainText_ampFree toks h.1.2
    constructor
    · simp only [processInlineTokens, linkText, ampFreeStr_append, Bool.and_eq_true]
      exact ⟨hlt, H2t⟩
    · intro q hq
      simp only [processInlineTokens, linkText, List.mem_cons] at hq
      simp only [processInlineTokens, linkText, List.length_append]
      rcases hq with hq | hq
      · subst hq
        simp only [DocRequest.maxBound]
        exact Nat.max_le.mpr ⟨by omega, by omega⟩
      · have := H2b q hq
        simp only [linkText] at this
        omega
  | case5 txt rest cur codeText ih =>
    intro h
    simp only [inlinesAmpFree, Bool.and_eq_true] at h
    obtain ⟨H2t, H2b⟩ := ih h.2
    have hct : ampFreeStr (decodeEntities txt) = true := by
      rw [decodeEntities_ampFree_id txt h.1]; exact h.1
    constructor
    · simp only [processInlineTokens, codeText, ampFreeStr_append, Bool.and_eq_true]
      exact ⟨hct, H2t⟩
    · intro q hq
      simp only [processInlineTokens, codeText, List.mem_cons] at hq
      simp only [processInlineTokens, codeText, List.length_append]
      rcases hq with hq | hq
      · subst hq
        simp only [DocRequest.maxBound]
        exact Nat.max_le.mpr ⟨by omega, by omega⟩
      · have := H2b q hq
        simp only [codeText] at this
        omega
  | case6 txt toks rest cur hemp plainText ih =>
    intro h
    simp only [inlinesAmpFree, Bool.and_eq_true] at h
    obtain ⟨H2t, H2b⟩ := ih h.2
    have hct : ampFreeStr (decodeEntities txt) = true := by
      rw [decodeEntities_ampFree_id txt h.1.1]; exact h.1.1
    constructor
    · simp only [processInlineTokens, plainText, hemp, if_true, ampFreeStr_append,
        Bool.and_eq_true]
      exact ⟨hct, H2t⟩
    · intro q hq
      simp only [processInlineTokens, plainText, hemp, if_true] at hq
      simp only [processInlineTokens, plainText, hemp, if_true, List.length_append]
      have := H2b q hq
      simp only [plainText] at this
      omega
  | case7 txt toks rest cur hemp result ih1 ih2 =>
    intro h
    simp only [inlinesAmpFree, Bool.and_eq_true] at h
    obtain ⟨H1t, H1b⟩ := ih1 h.1.2
    obtain ⟨H2t, H2b⟩ := ih2 h.2
    have heq : processInlineTokens (InlineToken.text txt toks :: rest) cur =
        ((processInlineTokens toks cur).1 ++
          (processInlineTokens rest
            (cur + (processInlineTokens toks cur).1.length)).1,
         (processInlineTokens toks cur).2 ++
          (processInlineTokens rest
            (cur + (processInlineTokens toks cur).1.length)).2) := by
      simp only [processInlineTokens]
      rw [if_neg hemp]
    rw [heq]
    constructor
    · simp only [ampFreeStr_append, Bool.and_eq_true]
      exact ⟨H1t, H2t⟩
    · intro q hq
      simp only [List.mem_append] at hq
      simp only [List.length_append]
      rcases hq with hq | hq
      · have := H1b q hq; omega
      · have := H2b q hq
        simp only [result] at this
        omega
  | case8 ty txt toks rest cur hemp defaultText ih =>
    intro h
    simp only [inlinesAmpFree, Bool.and_eq_true] at h
    obtain ⟨H2t, H2b⟩ := ih h.2
    have hct : ampFreeStr (decodeEntities txt) = true := by
      rw [decodeEntities_ampFree_id txt h.1.1]; exact h.1.1
    constructor
    · simp only [processInlineTokens, defaultText, hemp, if_true, ampFreeStr_append,
        Bool.and_eq_true]
      exact ⟨hct, H2t⟩
    · intro q hq
      simp only [processInlineTokens, defaultText, hemp, if_true] at hq
      simp only [processInlineTokens, defaultText, hemp, if_true, List.length_append]
      have := H2b q hq
      simp only [defaultText] at this
      omega
  | case9 ty txt toks rest cur hemp result ih1 ih2 =>
    intro h
    simp only [inlinesAmpFree, Bool.and_eq_true] at h
    obtain ⟨H1t, H1b⟩ := ih1 h.1.2
    obtain ⟨H2t, H2b⟩ := ih2 h.2
    have heq : processInlineTokens (InlineToken.other ty txt toks :: rest) cur =
        ((processInlineTokens toks cur).1 ++
          (processInlineTokens rest
            (cur + (processInlineTokens toks cur).1.length)).1,
         (processInlineTokens toks cur).2 ++
          (processInlineTokens rest
            (cur + (processInlineTokens toks cur).1.length)).2) := by
      simp only [processInlineTokens]
      rw [if_neg hemp]
    rw [heq]
    constructor
    · simp only [ampFreeStr_append, Bool.and_eq_true]
      exact ⟨H1t, H2t⟩
    · intro q hq
      simp only [List.mem_append] at hq
      simp only [List.length_append]
      rcases hq with hq | hq
      · have := H1b q hq; omega
      · have := H2b q hq
        simp only [result] at this
        omega

theorem blocksAmpFree_cons (t : BlockToken) (rest : List BlockToken) :
    blocksAmpFree (t :: rest) = (blocksAmpFree [t] && blocksAmpFree rest) := by
  cases t <;> simp [blocksAmpFree, Bool.and_assoc]

theorem getPlainTextBlocks_ampFree (toks : List BlockToken) :
    blocksAmpFree toks = true → ampFreeStr (getPlainTextBlocks toks) = true := by
  induction toks using getPlainTextBlocks.induct with
  | case1 => exact fun _ => by simp [getPlainTextBlocks, ampFreeStr]
  | case2 depth txt toks rest ih =>
    intro h
    simp only [blocksAmpFree, Bool.and_eq_true] at h
    simp only [getPlainTextBlocks, ampFreeStr_append, Bool.and_eq_true]
    exact ⟨by split; exacts [h.1.1, getPlainText_ampFree toks h.1.2], ih h.2⟩
  | case3 txt toks rest ih =>
    intro h
    simp only [blocksAmpFree, Bool.and_eq_true] at h
    simp only [getPlainTextBlocks, ampFreeStr_append, Bool.and_eq_true]
    exact ⟨by split; exacts [h.1.1, getPlainText_ampFree toks h.1.2], ih h.2⟩
  | case4 ordered items rest ih =>
    intro h
    simp only [blocksAmpFree, Bool.and_eq_true] at h
    simp only [getPlainTextBlocks]
    exact ih h.2
  | case5 header rows rest ih =>
    intro h
    simp only [blocksAmpFree, Bool.and_eq_true] at h
    simp only [getPlainTextBlocks]
    exact ih h.2
  | case6 txt rest ih =>
    intro h
    simp only [blocksAmpFree, Bool.and_eq_true] at h
    simp only [getPlainTextBlocks, ampFreeStr_append, Bool.and_eq_true]
    exact ⟨h.1, ih h.2⟩
  | case7 txt toks rest ih1 ih2 =>
    intro h
    simp only [blocksAmpFree, Bool.and_eq_true] at h
    simp only [getPlainTextBlocks, ampFreeStr_append, Bool.and_eq_true]
    exact ⟨by split; exacts [h.1.1, ih1 h.1.2], ih2 h.2⟩
  | case8 rest ih =>
    intro h
    simp only [blocksAmpFree] at h
    simp only [getPlainTextBlocks]
    exact ih h
  | case9 rest ih =>
    intro h
    simp only [blocksAmpFree] at h
    simp only [getPlainTextBlocks]
    exact ih h
  | case10 txt toks rest ih =>
    intro h
    simp only [blocksAmpFree, Bool.and_eq_true] at h
    simp only [getPlainTextBlocks, ampFreeStr_append, Bool.and_eq_true]
    exact ⟨by split; exacts [h.1.1, getPlainText_ampFree toks h.1.2], ih h.2⟩
  | case11 ty txt rest ih =>
    intro h
    simp only [blocksAmpFree, Bool.and_eq_true] at h
    simp only [getPlainTextBlocks, ampFreeStr_append, Bool.and_eq_true]
    exact ⟨h.1, ih h.2⟩

theorem processListItemTokens_ok (toks : List BlockToken) (cur : Nat) :
    blocksAmpFree toks = true →
    ampFreeStr (processListItemTokens toks cur).1 = true ∧
    ∀ q ∈ (processListItemTokens toks cur).2,
      q.maxBound ≤ cur + (processListItemTokens toks cur).1.length := by
  induction toks, cur using processListItemTokens.induct with
  | case1 cur =>
    intro _
    exact ⟨by simp [processListItemTokens, ampFreeStr], by simp [processListItemTokens]⟩
  | case2 text toks rest cur ih =>
    intro h
    simp only [blocksAmpFree, Bool.and_eq_true] at h
    obtain ⟨H1t, H1b⟩ := processInlineTokens_ok toks cur h.1.2
    obtain ⟨H2t, H2b⟩ := ih h.2
    constructor
    · simp only [processListItemTokens, ampFreeStr_append, Bool.and_eq_true]
      exact ⟨H1t, H2t⟩
    · intro q hq
      simp only [processListItemTokens, List.mem_append] at hq
      simp only [processListItemTokens, List.length_append]
      rcases hq with hq | hq
      · have := H1b q hq; omega
      · have := H2b q hq; omega
  | case3 text toks rest cur ih =>
    intro h
    simp only [blocksAmpFree, Bool.and_eq_true] at h
    obtain ⟨H1t, H1b⟩ := processInlineTokens_ok toks cur h.1.2
    obtain ⟨H2t, H2b⟩ := ih h.2
    constructor
    · simp only [processListItemTokens, ampFreeStr_append, Bool.and_eq_true]
      exact ⟨H1t, H2t⟩
    · intro q hq
      simp only [processListItemTokens, List.mem_append] at hq
      simp only [processListItemTokens, List.length_append]
      rcases hq with hq | hq
      · have := H1b q hq; omega
      · have := H2b q hq; omega
  | case4 t rest cur hne1 hne2 ih =>
    intro h
    rw [blocksAmpFree_cons, Bool.and_eq_true] at h
    obtain ⟨H2t, H2b⟩ := ih h.2
    have hd : ampFreeStr (decodeEntities (getPlainTextBlocks [t])) = true := by
      have := getPlainTextBlocks_ampFree [t] h.1
      rw [decodeEntities_ampFree_id _ this]; exact this
    have heq : processListItemTokens (t :: rest) cur =
        (decodeEntities (getPlainTextBlocks [t]) ++ (processListItemTokens rest cur).1,
         (processListItemTokens rest cur).2) := by
      cases t
      case textBlock a b => exact absurd rfl (hne1 a b)
      case paragraph a b => exact absurd rfl (hne2 a b)
      all_goals simp [processListItemTokens]
    rw [heq]
    constructor
    · simp only [ampFreeStr_append, Bool.and_eq_true]
      exact ⟨hd, H2t⟩
    · intro q hq
      simp only [List.length_append]
      have := H2b q hq; omega

theorem processListItems_ok (items : List (List BlockToken)) (cur : Nat) :
    itemsAmpFree items = true →
    ampFreeStr (processListItems items cur).1 = true ∧
    ∀ q ∈ (processListItems items cur).2,
      q.maxBound ≤ cur + (processListItems items cur).1.length := by
  induction items, cur using processListItems.induct with
  | case1 cur =>
    intro _
    exact ⟨by simp [processListItems, ampFreeStr], by simp [processListItems]⟩
  | case2 itemTokens rest cur r itemText ih =>
    intro h
    simp only [itemsAmpFree, Bool.and_eq_true] at h
    obtain ⟨H1t, H1b⟩ := processListItemTokens_ok itemTokens cur h.1
    obtain ⟨H2t, H2b⟩ := ih h.2
    simp only [itemText, r] at H2t H2b
    constructor
    · simp only [processListItems, ampFreeStr_append, Bool.and_eq_true]
      refine ⟨⟨H1t, by decide⟩, ?_⟩
      simpa [List.length_append] using H2t
    · intro q hq
      simp only [processListItems, List.mem_append] at hq
      simp only [processListItems, List.length_append]
      rcases hq with hq | hq
      · have := H1b q hq; omega
      · have := H2b q hq
        simp only [List.length_append] at this ⊢
        omega

theorem blockquoteChildText_ampFree (t : BlockToken) (h : blocksAmpFree [t] = true) :
    ampFreeStr (blockquoteChildText t) = true := by
  cases t with
  | paragraph txt toks =>
    simp only [blocksAmpFree, Bool.and_eq_true] at h
    have := getPlainText_ampFree toks h.1.2
    simp only [blockquoteChildText, ampFreeStr_append, Bool.and_eq_true,
      decodeEntities_ampFree_id _ this]
    exact ⟨this, by decide⟩
  | heading depth txt toks =>
    simp only [blocksAmpFree, Bool.and_eq_true] at h
    simp only [blockquoteChildText]
    split
    · rfl
    · simp only [ampFreeStr_append, Bool.and_eq_true,
        decodeEntities_ampFree_id _ h.1.1]
      exact ⟨h.1.1, by decide⟩
  | code txt =>
    simp only [blocksAmpFree, Bool.and_eq_true] at h
    simp only [blockquoteChildText]
    split
    · rfl
    · simp only [ampFreeStr_append, Bool.and_eq_true,
        decodeEntities_ampFree_id _ h.1]
      exact ⟨h.1, by decide⟩
  | blockquote txt toks =>
    simp only [blocksAmpFree, Bool.and_eq_true] at h
    simp only [blockquoteChildText]
    split
    · rfl
    · simp only [ampFreeStr_append, Bool.and_eq_true,
        decodeEntities_ampFree_id _ h.1.1]
      exact ⟨h.1.1, by decide⟩
  | textBlock txt toks =>
    simp only [blocksAmpFree, Bool.and_eq_true] at h
    simp only [blockquoteChildText]
    split
    · rfl
    · simp only [ampFreeStr_append, Bool.and_eq_true,
        decodeEntities_ampFree_id _ h.1.1]
      exact ⟨h.1.1, by decide⟩
  | other ty txt =>
    simp only [blocksAmpFree, Bool.and_eq_true] at h
    simp only [blockquoteChildText]
    split
    · rfl
    · simp only [ampFreeStr_append, Bool.and_eq_true,
        decodeEntities_ampFree_id _ h.1]
      exact ⟨h.1, by decide⟩
  | list ordered items => rfl
  | table header rows => rfl
  | hr => rfl
  | space => rfl

theorem blockquoteChildren_ampFree (toks : List BlockToken)
    (h : blocksAmpFree toks = true) :
    ampFreeStr ((toks.map blockquoteChildText).flatten) = true := by
  induction toks with
  | nil => rfl
  | cons t rest ih =>
    rw [blocksAmpFree_cons, Bool.and_eq_true] at h
    simp only [List.map_cons, List.flatten_cons, ampFreeStr_append, Bool.and_eq_true]
    exact ⟨blockquoteChildText_ampFree t h.1, ih h.2⟩

theorem processToken_ok (tok : BlockToken) (s : Nat) :
    blocksAmpFree [tok] = true →
    ampFreeStr (processToken tok s).text = true ∧
    ∀ q ∈ (processToken tok s).requests,
      q.maxBound ≤ s + (processToken tok s).text.length := by
  cases tok with
  | heading depth txt toks =>
    intro h
    simp only [blocksAmpFree, Bool.and_eq_true] at h
    obtain ⟨Ht, Hb⟩ := processInlineTokens_ok toks s h.1.2
    constructor
    · simp only [processToken, processHeading, ampFreeStr_append, Bool.and_eq_true]
      exact ⟨Ht, by decide⟩
    · intro q hq
      simp only [processToken, processHeading, List.mem_cons] at hq
      simp only [processToken, processHeading, List.length_append, List.length_cons,
        List.length_nil]
      rcases hq with hq | hq
      · subst hq
        simp only [DocRequest.maxBound, List.length_append, List.length_cons,
          List.length_nil]
        exact Nat.max_le.mpr ⟨by omega, by omega⟩
      · have := Hb q hq; omega
  | paragraph txt toks =>
    intro h
    simp only [blocksAmpFree, Bool.and_eq_true] at h
    obtain ⟨Ht, Hb⟩ := processInlineTokens_ok toks s h.1.2
    constructor
    · simp only [processToken, processParagraph, ampFreeStr_append, Bool.and_eq_true]
      exact ⟨Ht, by decide⟩
    · intro q hq
      simp only [processToken, processParagraph] at hq
      simp only [processToken, processParagraph, List.length_append, List.length_cons,
        List.length_nil]
      have := Hb q hq; omega
  | list ordered items =>
    intro h
    simp only [blocksAmpFree, Bool.and_eq_true] at h
    obtain ⟨Ht, Hb⟩ := processListItems_ok items s h.1
    constructor
    · simp only [processToken, processList]
      exact Ht
    · intro q hq
      simp only [processToken, processList, List.mem_append, List.mem_singleton] at hq
      simp only [processToken, processList]
      rcases hq with hq | hq
      · have := Hb q hq; omega
      · subst hq
        simp only [DocRequest.maxBound]
        exact Nat.max_le.mpr ⟨by omega, by omega⟩
  | table header rows =>
    intro _
    refine ⟨?_, by simp [processToken, processTable]⟩
    simp only [processToken, processTable]
    decide
  | code txt =>
    intro h
    simp only [blocksAmpFree, Bool.and_eq_true] at h
    constructor
    · simp only [processToken, processCodeBlock, ampFreeStr_append, Bool.and_eq_true]
      exact ⟨h.1, by decide⟩
    · intro q hq
      simp only [processToken, processCodeBlock, List.mem_singleton] at hq
      subst hq
      simp only [processToken, processCodeBlock, DocRequest.maxBound,
        List.length_append, List.length_cons, List.length_nil]
      exact Nat.max_le.mpr ⟨by omega, by omega⟩
  | blockquote txt toks =>
    intro h
    simp only [blocksAmpFree, Bool.and_eq_true] at h
    have Ht := blockquoteChildren_ampFree toks h.1.2
    constructor
    · simp only [processToken, processBlockquote]
      exact Ht
    · intro q hq
      simp only [processToken, processBlockquote, List.mem_cons,
        List.mem_singleton, List.not_mem_nil, or_false] at hq
      simp only [processToken, processBlockquote]
      rcases hq with hq | hq <;>
      · subst hq
        simp only [DocRequest.maxBound]
        exact Nat.max_le.mpr ⟨by omega, by omega⟩
  | hr =>
    intro _
    constructor
    · simp only [processToken, processHorizontalRule]
      decide
    · intro q hq
      simp only [processToken, processHorizontalRule, List.mem_cons,
        List.mem_singleton, List.not_mem_nil, or_false] at hq
      simp only [processToken, processHorizontalRule, List.length_append,
        List.length_cons, List.length_nil, List.length_replicate]
      rcases hq with hq | hq <;>
      · subst hq
        simp only [DocRequest.maxBound, List.length_replicate]
        exact Nat.max_le.mpr ⟨by omega, by omega⟩
  | space =>
    intro _
    refine ⟨?_, by simp [processToken]⟩
    simp only [processToken]
    decide
  | textBlock txt toks =>
    intro _
    refine ⟨?_, by simp [processToken]⟩
    simp only [processToken]
    decide
  | other ty txt =>
    intro _
    refine ⟨?_, by simp [processToken]⟩
    simp only [processToken]
    decide

theorem parseMarkdownLoop_cursor (toks : List BlockToken) (st : ParseState) :
    (parseMarkdownLoop toks st).currentIndex + st.text.length =
      st.currentIndex + (parseMarkdownLoop toks st).text.length := by
  induction toks generalizing st with
  | nil => simp [parseMarkdownLoop]
  | cons tok rest ih =>
    simp only [parseMarkdownLoop]
    have h := ih { text := st.text ++ decodeEntities (processToken tok st.currentIndex).text
                   requests := st.requests ++ (processToken tok st.currentIndex).requests
                   tables := match (processToken tok st.currentIndex).tableInfo with
                     | some ti => st.tables ++ [{ ti with textIndex := st.currentIndex }]
                     | none => st.tables
                   currentIndex := st.currentIndex +
                     (decodeEntities (processToken tok st.currentIndex).text).length }
    simp only [List.length_append] at h ⊢
    omega

theorem parseMarkdown_cursor (tokens : List BlockToken) :
    (parseMarkdown tokens).currentIndex = 1 + (parseMarkdown tokens).text.length := by
  have := parseMarkdownLoop_cursor tokens
    { text := [], requests := [], tables := [], currentIndex := 1 }
  simpa [parseMarkdown] using this

theorem parseMarkdownLoop_bounds (toks : List BlockToken) (st : ParseState)
    (hamp : blocksAmpFree toks = true)
    (hinv : ∀ q ∈ st.requests, q.maxBound ≤ st.currentIndex) :
    ∀ q ∈ (parseMarkdownLoop toks st).requests,
      q.maxBound ≤ (parseMarkdownLoop toks st).currentIndex := by
  induction toks generalizing st with
  | nil => simpa [parseMarkdownLoop] using hinv
  | cons tok rest ih =>
    rw [blocksAmpFree_cons, Bool.and_eq_true] at hamp
    obtain ⟨Ht, Hb⟩ := processToken_ok tok st.currentIndex hamp.1
    simp only [parseMarkdownLoop]
    apply ih _ hamp.2
    intro q hq
    simp only [List.mem_append] at hq
    simp only [decodeEntities_ampFree_id _ Ht]
    rcases hq with hq | hq
    · have := hinv q hq; omega
    · exact Hb q hq

/-! ## Typography line lemmas -/

theorem dropPat_mem (ps : Str) : ∀ (s r : Str), dropPat ps s = some r →
    ∀ c ∈ r, c ∈ s := by
  induction ps with
  | nil =>
    intro s r h c hc
    simp only [dropPat, Option.some.injEq] at h
    exact h ▸ hc
  | cons p ps ih =>
    intro s r h c hc
    cases s with
    | nil => simp [dropPat] at h
    | cons a rest =>
      simp only [dropPat] at h
      split at h
      · exact List.mem_cons_of_mem a (ih rest r h c hc)
      · exact absurd h (by simp)

theorem sepScanGo_cons_hit (sep : Str) (g1 g2 : Char → Bool) (repl : Char)
    (fuel : Nat) (c : Char) (rest : Str) (b : Char) (rest' : Str)
    (hdp : dropPat sep rest = some (b :: rest')) (hg : (g1 c && g2 b) = true) :
    sepScanGo sep g1 g2 repl (fuel + 1) (c :: rest) =
      c :: repl :: b :: sepScanGo sep g1 g2 repl fuel rest' := by
  rw [sepScanGo, hdp]
  dsimp only
  rw [if_pos hg]

theorem sepScanGo_cons_guard (sep : Str) (g1 g2 : Char → Bool) (repl : Char)
    (fuel : Nat) (c : Char) (rest : Str) (b : Char) (rest' : Str)
    (hdp : dropPat sep rest = some (b :: rest')) (hg : ¬(g1 c && g2 b) = true) :
    sepScanGo sep g1 g2 repl (fuel + 1) (c :: rest) =
      c :: sepScanGo sep g1 g2 repl fuel rest := by
  rw [sepScanGo, hdp]
  dsimp only
  rw [if_neg hg]

theorem sepScanGo_cons_miss (sep : Str) (g1 g2 : Char → Bool) (repl : Char)
    (fuel : Nat) (c : Char) (rest : Str)
    (hdp : ∀ (b : Char) (rest' : Str), dropPat sep rest = some (b :: rest') → False) :
    sepScanGo sep g1 g2 repl (fuel + 1) (c :: rest) =
      c :: sepScanGo sep g1 g2 repl fuel rest := by
  rw [sepScanGo]
  cases hd : dropPat sep rest with
  | none => rfl
  | some r =>
    cases r with
    | nil => rfl
    | cons b rest' => exact absurd hd (fun h => hdp b rest' h)

theorem sepScanGo_chars (sep : Str) (g1 g2 : Char → Bool) (repl : Char)
    (fuel : Nat) (s : Str) :
    ∀ c ∈ sepScanGo sep g1 g2 repl fuel s, c ∈ s ∨ c = repl := by
  induction fuel, s using sepScanGo.induct sep g1 g2 repl with
  | case1 t => simp [sepScanGo]
  | case2 s hne =>
    intro c hc
    cases s with
    | nil => simp [sepScanGo] at hc
    | cons a rest => exact .inl (by simp only [sepScanGo] at hc; exact hc)
  | case3 fuel a rest b rest' hdp hg ih =>
    intro c hc
    rw [sepScanGo_cons_hit sep g1 g2 repl fuel a rest b rest' hdp hg] at hc
    simp only [List.mem_cons] at hc
    rcases hc with rfl | rfl | rfl | hc
    · exact .inl (List.mem_cons_self _ _)
    · exact .inr rfl
    · exact .inl (List.mem_cons_of_mem a
        (dropPat_mem sep rest _ hdp _ (List.mem_cons_self _ _)))
    · rcases ih c hc with h | h
      · exact .inl (List.mem_cons_of_mem a
          (dropPat_mem sep rest _ hdp _ (List.mem_cons_of_mem b h)))
      · exact .inr h
  | case4 fuel a rest b rest' hdp hg ih =>
    intro c hc
    rw [sepScanGo_cons_guard sep g1 g2 repl fuel a rest b rest' hdp hg] at hc
    simp only [List.mem_cons] at hc
    rcases hc with rfl | hc
    · exact .inl (List.mem_cons_self _ _)
    · rcases ih c hc with h | h
      · exact .inl (List.mem_cons_of_mem a h)
      · exact .inr h
  | case5 fuel a rest hdp ih =>
    intro c hc
    rw [sepScanGo_cons_miss sep g1 g2 repl fuel a rest hdp] at hc
    simp only [List.mem_cons] at hc
    rcases hc with rfl | hc
    · exact .inl (List.mem_cons_self _ _)
    · rcases ih c hc with h | h
      · exact .inl (List.mem_cons_of_mem a h)
      · exact .inr h

theorem sepScan_chars (sep : Str) (g1 g2 : Char → Bool) (repl : Char) (s : Str) :
    ∀ c ∈ sepScan sep g1 g2 repl s, c ∈ s ∨ c = repl :=
  sepScanGo_chars sep g1 g2 repl s.length s

theorem anchoredQuote_chars (q repl : Char) (s : Str) :
    ∀ c ∈ anchoredQuote q repl s, c ∈ s ∨ c = repl := by
  intro c hc
  cases s with
  | nil => simp [anchoredQuote, sepScan, sepScanGo] at hc
  | cons a rest =>
    cases rest with
    | nil =>
      simp only [anchoredQuote] at hc
      exact sepScan_chars _ _ _ _ _ c hc
    | cons b rest' =>
      simp only [anchoredQuote] at hc
      split at hc
      · simp only [List.mem_cons] at hc
        rcases hc with rfl | rfl | hc
        · exact .inr rfl
        · exact .inl (List.mem_cons_of_mem _ (List.mem_cons_self _ _))
        · rcases sepScan_chars _ _ _ _ _ c hc with h | h
          · exact .inl (List.mem_cons_of_mem _ (List.mem_cons_of_mem _ h))
          · exact .inr h
      · exact sepScan_chars _ _ _ _ _ c hc

theorem ellipsisGo_cons_hit (fuel : Nat) (c : Char) (rest rest' : Str)
    (hdp : dropPat ['.', '.', '.'] (c :: rest) = some rest') :
    ellipsisGo (fuel + 1) (c :: rest) = '…' :: ellipsisGo fuel rest' := by
  rw [ellipsisGo, hdp]

theorem ellipsisGo_cons_miss (fuel : Nat) (c : Char) (rest : Str)
    (hdp : dropPat ['.', '.', '.'] (c :: rest) = none) :
    ellipsisGo (fuel + 1) (c :: rest) = c :: ellipsisGo fuel rest := by
  rw [ellipsisGo, hdp]

theorem dropPat_dots_mem (s r : Str) (h : dropPat ['.', '.', '.'] s = some r) :
    ∀ c ∈ r, c ∈ s :=
  dropPat_mem ['.', '.', '.'] s r h

theorem ellipsisGo_chars (fuel : Nat) (s : Str) :
    ∀ c ∈ ellipsisGo fuel s, c ∈ s ∨ c = '…' := by
  induction fuel generalizing s with
  | zero =>
    intro c hc
    cases s with
    | nil => simp [ellipsisGo] at hc
    | cons a rest => exact .inl (by simp only [ellipsisGo] at hc; exact hc)
  | succ fuel ih =>
    intro c hc
    cases s with
    | nil => simp [ellipsisGo] at hc
    | cons a rest =>
      cases hdp : dropPat ['.', '.', '.'] (a :: rest) with
      | some rest' =>
        rw [ellipsisGo_cons_hit fuel a rest rest' hdp] at hc
        simp only [List.mem_cons] at hc
        rcases hc with rfl | hc
        · exact .inr rfl
        · rcases ih rest' c hc with h | h
          · exact .inl (dropPat_dots_mem _ _ hdp c h)
          · exact .inr h
      | none =>
        rw [ellipsisGo_cons_miss fuel a rest hdp] at hc
        simp only [List.mem_cons] at hc
        rcases hc with rfl | hc
        · exact .inl (List.mem_cons_self _ _)
        · rcases ih rest c hc with h | h
          · exact .inl (List.mem_cons_of_mem a h)
          · exact .inr h

theorem closeDouble_chars (s : Str) : ∀ c ∈ closeDouble s, c ∈ s ∨ c = '”' := by
  intro c hc
  simp only [closeDouble, List.mem_map] at hc
  obtain ⟨x, hx, hfx⟩ := hc
  by_cases hxq : x = dquote
  · right; rw [← hfx, if_pos hxq]
  · left; rw [← hfx, if_neg hxq]; exact hx

theorem closeSingle_chars (s : Str) : ∀ c ∈ closeSingle s, c ∈ s ∨ c = '’' := by
  intro c hc
  simp only [closeSingle, List.mem_map] at hc
  obtain ⟨x, hx, hfx⟩ := hc
  by_cases hxq : x = apos
  · right; rw [← hfx, if_pos hxq]
  · left; rw [← hfx, if_neg hxq]; exact hx

theorem emDashMid_chars (s : Str) : ∀ c ∈ emDashMid s, c ∈ s ∨ c = '—' :=
  fun c hc => sepScan_chars _ _ _ _ s c hc

theorem emDashTrail_chars (s : Str) : ∀ c ∈ emDashTrail s, c ∈ s ∨ c = '—' :=
  fun c hc => sepScan_chars _ _ _ _ s c hc

theorem emDashLead_chars (s : Str) : ∀ c ∈ emDashLead s, c ∈ s ∨ c = '—' :=
  fun c hc => sepScan_chars _ _ _ _ s c hc

theorem enDashNum_chars (s : Str) : ∀ c ∈ enDashNum s, c ∈ s ∨ c = '–' :=
  fun c hc => sepScan_chars _ _ _ _ s c hc

theorem enDashMid_chars (s : Str) : ∀ c ∈ enDashMid s, c ∈ s ∨ c = '–' :=
  fun c hc => sepScan_chars _ _ _ _ s c hc

theorem ellipsisScan_chars (s : Str) : ∀ c ∈ ellipsisScan s, c ∈ s ∨ c = '…' :=
  fun c hc => ellipsisGo_chars s.length s c hc

theorem openDouble_chars (s : Str) : ∀ c ∈ openDouble s, c ∈ s ∨ c = '“' :=
  fun c hc => anchoredQuote_chars dquote '“' s c hc

theorem aposWord_chars (s : Str) : ∀ c ∈ aposWord s, c ∈ s ∨ c = '’' :=
  fun c hc => sepScan_chars _ _ _ _ s c hc

theorem openSingle_chars (s : Str) : ∀ c ∈ openSingle s, c ∈ s ∨ c = '‘' :=
  fun c hc => anchoredQuote_chars apos '‘' s c hc

theorem no_nl_step {f : Str → Str} {r : Char}
    (hf : ∀ t, ∀ c ∈ f t, c ∈ t ∨ c = r) (hr : r ≠ '\n')
    {t : Str} (hm : '\n' ∈ f t) : '\n' ∈ t :=
  (hf t '\n' hm).resolve_right fun he => hr he.symm

theorem smartLine_no_nl (l : Str) (h : '\n' ∉ l) : '\n' ∉ smartLine l := by
  rw [smartLine]
  split
  · exact h
  · intro hmem
    exact h (no_nl_step emDashMid_chars (by decide)
      (no_nl_step emDashTrail_chars (by decide)
        (no_nl_step emDashLead_chars (by decide)
          (no_nl_step enDashNum_chars (by decide)
            (no_nl_step enDashMid_chars (by decide)
              (no_nl_step ellipsisScan_chars (by decide)
                (no_nl_step openDouble_chars (by decide)
                  (no_nl_step closeDouble_chars (by decide)
                    (no_nl_step aposWord_chars (by decide)
                      (no_nl_step openSingle_chars (by decide)
                        (no_nl_step closeSingle_chars (by decide) hmem)))))))))))

theorem splitNl_cons_ne (c : Char) (rest : Str) (hne : c ≠ '\n') :
    splitNl (c :: rest) =
      match splitNl rest with
      | l :: ls => (c :: l) :: ls
      | [] => [[c]] := by
  rw [splitNl]
  exact hne

theorem splitNl_ne_nil (s : Str) : splitNl s ≠ [] := by
  induction s using splitNl.induct with
  | case1 => simp [splitNl]
  | case2 rest ih => simp [splitNl]
  | case3 c rest hne l ls hsp ih =>
    rw [splitNl_cons_ne c rest hne, hsp]
    simp
  | case4 c rest hne hsp ih =>
    rw [splitNl_cons_ne c rest hne, hsp]
    simp

theorem splitNl_no_nl (s : Str) : ∀ l ∈ splitNl s, '\n' ∉ l := by
  induction s using splitNl.induct with
  | case1 =>
    intro l hl
    simp only [splitNl, List.mem_singleton] at hl
    simp [hl]
  | case2 rest ih =>
    intro l hl
    rw [splitNl] at hl
    rcases List.mem_cons.mp hl with rfl | hl
    · simp
    · exact ih l hl
  | case3 c rest hne l0 ls hsp ih =>
    intro l hl
    rw [splitNl_cons_ne c rest hne, hsp] at hl
    rcases List.mem_cons.mp hl with rfl | hl
    · intro hmem
      rcases List.mem_cons.mp hmem with he | hmem
      · exact hne he.symm
      · exact ih l0 (hsp ▸ List.mem_cons_self _ _) hmem
    · exact ih l (hsp ▸ List.mem_cons_of_mem l0 hl)
  | case4 c rest hne hsp ih =>
    exact absurd hsp (splitNl_ne_nil rest)

theorem splitNl_no_nl_single (l : Str) (h : '\n' ∉ l) : splitNl l = [l] := by
  induction l with
  | nil => rfl
  | cons c rest ih =>
    have hc : c ≠ '\n' := fun he => h (by rw [he]; exact List.mem_cons_self _ _)
    rw [splitNl_cons_ne c rest hc, ih (fun hm => h (List.mem_cons_of_mem c hm))]

theorem splitNl_append_nl (l t : Str) (h : '\n' ∉ l) :
    splitNl (l ++ '\n' :: t) = l :: splitNl t := by
  induction l with
  | nil =>
    rw [List.nil_append, splitNl]
  | cons c rest ih =>
    have hc : c ≠ '\n' := fun he => h (by rw [he]; exact List.mem_cons_self _ _)
    rw [List.cons_append, splitNl_cons_ne c _ hc,
      ih (fun hm => h (List.mem_cons_of_mem c hm))]

theorem joinNl_cons₂ (a b : Str) (t : List Str) :
    joinNl (a :: b :: t) = a ++ '\n' :: joinNl (b :: t) := by
  rw [joinNl]
  simp

theorem splitNl_joinNl (L : List Str) (hne : L ≠ []) (h : ∀ l ∈ L, '\n' ∉ l) :
    splitNl (joinNl L) = L := by
  induction L with
  | nil => exact absurd rfl hne
  | cons l rest ih =>
    cases rest with
    | nil =>
      have : joinNl [l] = l := rfl
      rw [this, splitNl_no_nl_single l (h l (List.mem_cons_self _ _))]
    | cons l2 rest2 =>
      rw [joinNl_cons₂,
        splitNl_append_nl l _ (h l (List.mem_cons_self _ _)),
        ih (by simp) (fun x hx => h x (List.mem_cons_of_mem l hx))]

theorem smartTypography_lines (s : Str) :
    splitNl (smartTypography s) = (splitNl s).map smartLine := by
  rw [smartTypography]
  apply splitNl_joinNl
  · simp [splitNl_ne_nil s]
  · intro l hl
    rw [List.mem_map] at hl
    obtain ⟨l0, hl0, rfl⟩ := hl
    exact smartLine_no_nl l0 (splitNl_no_nl s l0 hl0)

/-! ## Claim theorems -/

/-- C2: for the input markdown `# Title\n**bold** text`, compilation yields
payload text `"Title\nbold text\n"`, exactly one paragraph-style operation
with named style HEADING_1 over `[1,6)`, exactly one bold text-style
operation over `[7,11)`, and no table descriptors. -/
theorem c2_scenario_a :
    (parseMarkdown scenarioATokens).text = "Title\nbold text\n".toList ∧
    (parseMarkdown scenarioATokens).requests =
      [.updateParagraphStyle 1 6 (.named "HEADING_1"),
       .updateTextStyle 7 11 .bold] ∧
    (parseMarkdown scenarioATokens).tables = [] := by
  simp [scenarioATokens, parseMarkdown, parseMarkdownLoop, processToken,
    processHeading, processParagraph, processInlineTokens, decodeEntities,
    replaceAll, replaceAllGo, matchesPat, apos, dquote, headingStyles]

/-- C9 (code bug): `smartTypography` is not idempotent.  On the failing
input `a-------b` one application yields `a—–--b` and a second application
changes that to `a—––b`, contradicting the documented no-op contract for
re-filtering filtered text. -/
theorem c9_typography_not_idempotent :
    smartTypography (smartTypography "a-------b".toList) ≠
      smartTypography "a-------b".toList ∧
    smartTypography "a-------b".toList = "a—–--b".toList ∧
    smartTypography (smartTypography "a-------b".toList) = "a—––b".toList := by
  decide

/-- C7 counterexample: an unrecognized block token whose raw text is
present (`x` here) contributes the empty string, not its raw text, so the
claim as stated fails. -/
theorem c7_counterexample :
    (processToken (.other "html" ['x']) 1).text ≠ ['x'] ∧
    (processToken (.other "html" ['x']) 1).text = [] := by
  constructor
  · simp [processToken]
  · rfl

/-- C7 (amended): compilation never fails on unrecognized node kinds, and
degrades as the code does — an unrecognized block kind contributes the
empty string (even when raw text is present) and no requests; an
unrecognized inline kind without structured children contributes its
entity-decoded raw text with no request; one with structured children
contributes exactly its children's processed text and requests. -/
theorem c7_unknown_node_degradation (ty : String) (txt : Str) (s : Nat) :
    (processToken (.other ty txt) s).text = [] ∧
    (processToken (.other ty txt) s).requests = [] ∧
    processInlineTokens [.other ty txt []] s = (decodeEntities txt, []) ∧
    ∀ toks, toks ≠ [] →
      processInlineTokens [.other ty txt toks] s = processInlineTokens toks s := by
  refine ⟨rfl, rfl, by simp [processInlineTokens], ?_⟩
  intro toks h
  cases toks with
  | nil => exact absurd rfl h
  | cons a l => simp [processInlineTokens]

/-- C7 witness: the amended claim applied at a concrete unknown inline node
with one structured child. -/
theorem c7_witness :
    processInlineTokens [.other "u" ['x'] [.text ['y'] []]] 3 =
      processInlineTokens [.text ['y'] []] 3 :=
  (c7_unknown_node_degradation "u" ['x'] 3).2.2.2 [.text ['y'] []]
    (List.cons_ne_nil _ _)

/-- C10 (implicit): for every token stream and insertion index the
request list is non-empty, its first element is an `insertText` request at
that index carrying exactly the returned payload text, and that text is
the compiler's concatenated block output. -/
theorem c10_insert_head (tokens : List BlockToken) (insertAt : Nat) :
    (generateDocRequests tokens insertAt).requests ≠ [] ∧
    (generateDocRequests tokens insertAt).requests.head? =
      some (.insertText insertAt (generateDocRequests tokens insertAt).text) ∧
    (generateDocRequests tokens insertAt).text = (parseMarkdown tokens).text :=
  ⟨by simp [generateDocRequests], rfl, rfl⟩

/-- C3: for every token stream and insertion index, the assembled request
list is exactly one `insertText` at the target index carrying the full
payload, then all bullet requests in emission order, then all remaining
requests in emission order; the `insertText` is the only text-insertion
request in the list. -/
theorem c3_request_assembly (tokens : List BlockToken) (insertAt : Nat) :
    (generateDocRequests tokens insertAt).requests =
      DocRequest.insertText insertAt (parseMarkdown tokens).text ::
        ((parseMarkdown tokens).requests.filter (fun q => q.isBullet) ++
         (parseMarkdown tokens).requests.filter (fun q => !q.isBullet)) ∧
    (generateDocRequests tokens insertAt).requests.filter (fun q => q.isInsert) =
      [.insertText insertAt (parseMarkdown tokens).text] := by
  have hall := parseMarkdown_requests_kinds tokens
  refine ⟨rfl, ?_⟩
  have h1 : ((parseMarkdown tokens).requests.filter fun q => q.isBullet).filter
      (fun q => q.isInsert) = [] := by
    rw [List.filter_eq_nil_iff]
    intro q hq
    simp [style_or_bullet_not_insert q (hall q (List.mem_of_mem_filter hq))]
  have h2 : ((parseMarkdown tokens).requests.filter fun q => !q.isBullet).filter
      (fun q => q.isInsert) = [] := by
    rw [List.filter_eq_nil_iff]
    intro q hq
    simp [style_or_bullet_not_insert q (hall q (List.mem_of_mem_filter hq))]
  have hreq : (generateDocRequests tokens insertAt).requests =
      DocRequest.insertText insertAt (parseMarkdown tokens).text ::
        ((parseMarkdown tokens).requests.filter (fun q => q.isBullet) ++
         (parseMarkdown tokens).requests.filter (fun q => !q.isBullet)) := rfl
  rw [hreq, List.filter_cons, List.filter_append, h1, h2]
  simp

/-- C6: Scenario B — compiling `- a\n- b` yields text `"a\nb\n"` and
exactly one bullet request over `[1,4)`; and in general every list block
emits exactly one bullet request, spanning from the list's start cursor to
the position before the final terminator, with the preset chosen by the
list's ordered flag. -/
theorem c6_scenario_b_and_list_bullet :
    ((parseMarkdown scenarioBTokens).text = "a\nb\n".toList ∧
     (parseMarkdown scenarioBTokens).requests =
       [.createParagraphBullets 1 4 "BULLET_DISC_CIRCLE_SQUARE"]) ∧
    ∀ (ordered : Bool) (items : List (List BlockToken)) (s : Nat),
      (processList ordered items s).requests.filter (fun q => q.isBullet) =
        [.createParagraphBullets s
          (s + (processList ordered items s).text.length - 1)
          (if ordered then "NUMBERED_DECIMAL_NESTED"
           else "BULLET_DISC_CIRCLE_SQUARE")] := by
  constructor
  · simp [scenarioBTokens, parseMarkdown, parseMarkdownLoop, processToken,
      processList, processListItems, processListItemTokens, processInlineTokens,
      decodeEntities, replaceAll, replaceAllGo, matchesPat, apos, dquote]
  · intro ordered items s
    have h0 : (processListItems items s).2.filter (fun q => q.isBullet) = [] := by
      rw [List.filter_eq_nil_iff]
      intro q hq
      simp [style_not_bullet q (processListItems_all_style items s q hq)]
    simp [processList, List.filter_append, h0]

/-- C5: Scenario D — the compiler defers the 3×2 table as a descriptor
anchored after the preceding paragraph, and materialization against the
live document inserts every cell in reverse row/column order, leaves all
six cells holding their source text, and bolds the header cells at the
positions re-queried after population. -/
theorem c5_scenario_d_materialization :
    (parseMarkdown scenarioDTokens).text = "Intro\n\n".toList ∧
    (parseMarkdown scenarioDTokens).tables = [scenarioDInfo] ∧
    (processTables [DocElement.para "Intro\n\n".toList] [scenarioDInfo]).doc =
      [.para "Intro\n".toList,
       .table [["H1".toList, "H2".toList], ["a".toList, "b".toList],
         ["c".toList, "d".toList]],
       .para "\n".toList] ∧
    (processTables [DocElement.para "Intro\n\n".toList] [scenarioDInfo]).insertBatches =
      [[.insertText 23 "d".toList, .insertText 21 "c".toList,
        .insertText 18 "b".toList, .insertText 16 "a".toList,
        .insertText 13 "H2".toList, .insertText 11 "H1".toList]] ∧
    (processTables [DocElement.para "Intro\n\n".toList] [scenarioDInfo]).headerBatches =
      [[.updateTextStyle 11 13 .bold, .updateTextStyle 15 17 .bold]] ∧
    ((findTablesInDoc
        (processTables [DocElement.para "Intro\n\n".toList] [scenarioDInfo]).doc).headD
          ⟨0, []⟩).rows.headD [] = [⟨11, 14⟩, ⟨15, 18⟩] := by
  refine ⟨?_, ?_, by decide, by decide, by decide, by decide⟩
  · simp [scenarioDTokens, parseMarkdown, parseMarkdownLoop, processToken,
      processParagraph, processTable, processInlineTokens, getPlainText,
      decodeEntities, replaceAll, replaceAllGo, matchesPat, apos, dquote]
  · simp [scenarioDTokens, scenarioDInfo, parseMarkdown, parseMarkdownLoop,
      processToken, processParagraph, processTable, processInlineTokens,
      getPlainText, decodeEntities, replaceAll, replaceAllGo, matchesPat,
      apos, dquote]

/-- C4 (code bug): with two tables in one document, reverse-order
materialization populates `tablesInDoc[tablesInDoc.length - 1]`, which on
the second iteration is the previously materialized later table rather
than the newly inserted earlier one; the earlier table is left empty and
the later one receives both texts, so the final cell contents differ from
the descriptors' cell text. -/
theorem c4_two_table_materialization_bug :
    (parseMarkdown twoTableTokens).text = "\nx\n\n".toList ∧
    (parseMarkdown twoTableTokens).tables = twoTableInfos ∧
    docTableCells
        (processTables [DocElement.para "\nx\n\n".toList] twoTableInfos).doc =
      [[[[]]], [["AB".toList]]] ∧
    docTableCells
        (processTables [DocElement.para "\nx\n\n".toList] twoTableInfos).doc ≠
      twoTableInfos.map (fun t => t.cells) := by
  refine ⟨?_, ?_, by decide, by decide⟩
  · simp [twoTableTokens, parseMarkdown, parseMarkdownLoop, processToken,
      processParagraph, processTable, processInlineTokens, getPlainText,
      decodeEntities, replaceAll, replaceAllGo, matchesPat, apos, dquote]
  · simp [twoTableTokens, twoTableInfos, parseMarkdown, parseMarkdownLoop,
      processToken, processParagraph, processTable, processInlineTokens,
      getPlainText, decodeEntities, replaceAll, replaceAllGo, matchesPat,
      apos, dquote]

/-- C1 counterexample: for a paragraph holding the code span `&amp;amp;`,
the emitted style operation ends at index 6 while the final cursor is 3.
`parseMarkdown` entity-decodes each block's text a second time after the
block handler already decoded it when computing operation ranges, so a
shrinking second decode leaves ranges beyond the final cursor. -/
theorem c1_counterexample :
    (parseMarkdown [.paragraph "x".toList [.codespan "&amp;amp;".toList]]).currentIndex
      = 3 ∧
    (parseMarkdown [.paragraph "x".toList [.codespan "&amp;amp;".toList]]).requests =
      [.updateTextStyle 1 6 .codespanStyle] ∧
    ¬ ∀ q ∈ (parseMarkdown
        [.paragraph "x".toList [.codespan "&amp;amp;".toList]]).requests,
          q.maxBound ≤ (parseMarkdown
            [.paragraph "x".toList [.codespan "&amp;amp;".toList]]).currentIndex := by
  have h1 : (parseMarkdown
      [.paragraph "x".toList [.codespan "&amp;amp;".toList]]).currentIndex = 3 := by
    simp [parseMarkdown, parseMarkdownLoop, processToken, processParagraph,
      processInlineTokens, decodeEntities, replaceAll, replaceAllGo, matchesPat,
      apos, dquote]
  have h2 : (parseMarkdown
      [.paragraph "x".toList [.codespan "&amp;amp;".toList]]).requests =
      [.updateTextStyle 1 6 .codespanStyle] := by
    simp [parseMarkdown, parseMarkdownLoop, processToken, processParagraph,
      processInlineTokens, decodeEntities, replaceAll, replaceAllGo, matchesPat,
      apos, dquote]
  refine ⟨h1, h2, fun hall => ?_⟩
  have := hall (.updateTextStyle 1 6 .codespanStyle)
    (by rw [h2]; exact List.mem_singleton_self _)
  rw [h1] at this
  simp [DocRequest.maxBound] at this

/-- C1 (amended): for every token stream, the final cursor of
`parseMarkdown` (starting at 1) equals the start index plus the length of
the returned payload text; and provided every token text is
ampersand-free — so that the second entity-decode in the loop is the
identity — both bounds of every emitted operation's range are at most
that final cursor. -/
theorem c1_cursor_and_bounds (tokens : List BlockToken) :
    (parseMarkdown tokens).currentIndex = 1 + (parseMarkdown tokens).text.length ∧
    (blocksAmpFree tokens = true →
      ∀ q ∈ (parseMarkdown tokens).requests,
        q.maxBound ≤ (parseMarkdown tokens).currentIndex) :=
  ⟨parseMarkdown_cursor tokens,
   fun h => parseMarkdownLoop_bounds tokens _ h (by simp)⟩

/-- C1 witness: the amended claim applied to Scenario A's token stream,
whose texts are ampersand-free; the bold operation's bounds are within the
final cursor. -/
theorem c1_witness :
    (parseMarkdown scenarioATokens).currentIndex =
      1 + (parseMarkdown scenarioATokens).text.length ∧
    DocRequest.maxBound (.updateTextStyle 7 11 .bold) ≤
      (parseMarkdown scenarioATokens).currentIndex :=
  ⟨(c1_cursor_and_bounds scenarioATokens).1,
   (c1_cursor_and_bounds scenarioATokens).2
     (by simp [scenarioATokens, blocksAmpFree, inlinesAmpFree, ampFreeStr])
     _
     (by simp [scenarioATokens, parseMarkdown, parseMarkdownLoop, processToken,
       processHeading, processParagraph, processInlineTokens, decodeEntities,
       replaceAll, replaceAllGo, matchesPat, apos, dquote, headingStyles])⟩

/-- C8: every line of the input that the filter's line-level exemption
check recognises as a table delimiter row or a horizontal-rule-only line
appears byte-identical, at the same line position, in the output of
`smartTypography`. -/
theorem c8_exempt_line_invariance (s : Str) (i : Nat)
    (h : i < (splitNl s).length)
    (hex : smartLineExempt ((splitNl s).getD i []) = true) :
    (splitNl (smartTypography s)).getD i [] = (splitNl s).getD i [] := by
  rw [smartTypography_lines]
  rw [List.getD_eq_getElem _ _ (by simpa using h), List.getElem_map,
    List.getD_eq_getElem _ _ h] at *
  rw [smartLine, if_pos hex]

/-- C8 witness: the table-delimiter line of a concrete two-line input is
unchanged while the other line is transformed. -/
theorem c8_witness :
    (splitNl (smartTypography "|---|\nx--y".toList)).getD 0 [] =
      (splitNl "|---|\nx--y".toList).getD 0 [] :=
  c8_exempt_line_invariance "|---|\nx--y".toList 0 (by decide) (by decide)
